import Mathlib

/-!
# cgrep: pattern to NFA compilation and NFA simulation

A shallow embedding of `cgrep.c`.  C strings are lists of characters (the
content before the terminating NUL, so a list without NUL), state identifiers
and array indices are natural numbers, the linked stack is a list with its top
first, arrays are lists read with `[i]?`, and every operation that is
undefined behaviour in C (popping the empty stack, indexing an array outside
its bounds) yields a `Fault`.  The `while` loops that pop a stack until it is
empty are recursions on the list.
-/

namespace Cgrep

/-- The ways a run leaves defined behaviour: `pop` on the empty stack, an array
index outside its bounds, and (a device of the embedding only) the recursion
budget of `add_state` running out. -/
inductive Fault where
  | emptyStack
  | outOfBounds
  | outOfFuel
  deriving DecidableEq

deriving instance DecidableEq for Except

/-- The terminator of a C string. -/
def NUL : Char := Char.ofNat 0

/-! ## Directed graph -/

/-- `struct Graph`: node count, the value at each node, one adjacency list per
node (`struct List` is its list of values, its `size` the list length). -/
structure Graph where
  size : Nat
  values : List Char
  adj : List (List Nat)
  deriving DecidableEq

/-- `init_graph`: `size` nodes with empty adjacency lists.  The value cells are
allocated without being initialised; they are filled with NUL here and are all
overwritten by `set_graph_vals_from_string` before any of them is read. -/
def init_graph (size : Nat) : Graph :=
  { size := size, values := List.replicate size NUL, adj := List.replicate size [] }

/-- `add_edge`: append `v` to the adjacency list of `u`. -/
def add_edge (g : Graph) (u v : Nat) : Except Fault Graph :=
  match g.adj[u]? with
  | none => .error .outOfBounds
  | some l => .ok { g with adj := g.adj.set u (l ++ [v]) }

/-! ## Stack -/

/-- The linked stack of `Node`s, top first. -/
abbrev Stack := List Nat

/-- `push`. -/
def push (top : Stack) (value : Nat) : Stack := value :: top

/-- `pop`: dereferences the top node, so the empty stack is a fault. -/
def pop : Stack → Except Fault (Nat × Stack)
  | [] => .error .emptyStack
  | value :: prev => .ok (value, prev)

/-- `is_empty`. -/
def is_empty (top : Stack) : Bool := top.isEmpty

/-- `destroy_stack`: pops until the stack is empty. -/
def destroy_stack : Stack → Stack
  | [] => []
  | _ :: prev => destroy_stack prev

/-! ## Regex to NFA -/

/-- `set_graph_vals_from_string`: copies `str[0 .. size-1]` into the value cells;
`str` is a C string, so index `str.length` holds the terminator and reading
beyond it is out of bounds. -/
def set_graph_vals_from_string (g : Graph) (str : List Char) : Except Fault Graph :=
  if g.size ≤ str.length + 1 then
    .ok { g with values := (str ++ [NUL]).take g.size }
  else .error .outOfBounds

/-- Read of `re[i]`. -/
def rd (re : List Char) (i : Nat) : Except Fault Char :=
  match re[i]? with
  | none => .error .outOfBounds
  | some c => .ok c

/-- One iteration of the `for` loop of `build_transitions`, at index `i`
(the loop guard `i < size - 1` holds, so the two `i < size - 1` tests inside
are true). -/
def build_step (nfa : Graph) (ops : Stack) (i : Nat) : Except Fault (Graph × Stack) := do
  let re := nfa.values
  let c ← rd re i
  let (nfa1, ops1, lp) ←
    (if c = '(' ∨ c = '|' then
      pure (nfa, push ops i, i)
    else if c = ')' then do
      let (or, ops1) ← pop ops
      let cm ← rd re or
      if cm = '|' then do
        let (lp, ops2) ← pop ops1
        let g1 ← add_edge nfa lp (or + 1)
        let g2 ← add_edge g1 or i
        pure (g2, ops2, lp)
      else pure (nfa, ops1, or)
    else pure (nfa, ops, i) : Except Fault (Graph × Stack × Nat))
  let cn ← rd re (i + 1)
  let nfa2 ← (if cn = '*' then do
      let g1 ← add_edge nfa1 lp (i + 1)
      add_edge g1 (i + 1) lp
    else pure nfa1 : Except Fault Graph)
  let nfa3 ← (if cn = '?' then add_edge nfa2 lp (i + 1) else pure nfa2 : Except Fault Graph)
  let nfa4 ← (if c = '(' ∨ c = '*' ∨ c = ')' ∨ c = '?' then add_edge nfa3 i (i + 1)
    else pure nfa3 : Except Fault Graph)
  pure (nfa4, ops1)

/-- The `for` loop of `build_transitions` from index `i`, with `k` iterations
left. -/
def build_loop : Nat → Nat → Graph → Stack → Except Fault (Graph × Stack)
  | 0, _, nfa, ops => .ok (nfa, ops)
  | k + 1, i, nfa, ops =>
    match build_step nfa ops i with
    | .error e => .error e
    | .ok (nfa1, ops1) => build_loop k (i + 1) nfa1 ops1

/-- `build_transitions`: `i` runs from `0` while `i < size - 1`.  The bound is
computed in `size_t`, so a graph without nodes would make it wrap around and
the first iteration read `re[0]` outside the array. -/
def build_transitions (nfa : Graph) (ops : Stack) : Except Fault (Graph × Stack) :=
  if nfa.size = 0 then .error .outOfBounds
  else build_loop (nfa.size - 1) 0 nfa ops

/-- `build_nfa`. -/
def build_nfa (regex : List Char) : Except Fault Graph := do
  let size := regex.length
  let nfa := init_graph (size + 1)
  let stack : Stack := []
  let nfa ← set_graph_vals_from_string nfa regex
  let (nfa, stack) ← build_transitions nfa stack
  let _ := destroy_stack stack
  pure nfa

/-! ## NFA simulation -/

/-- `init_bool_buffer` on a fresh buffer of `size` cells. -/
def init_bool_buffer (size : Nat) (val : Bool) : List Bool := List.replicate size val

/-- The `for` loop of `add_state` over the adjacency list, `call` being the
recursive call of `add_state`. -/
def add_state_loop (call : Nat → Stack → List Bool → Except Fault (Stack × List Bool)) :
    List Nat → Stack → List Bool → Except Fault (Stack × List Bool)
  | [], stack, already_on => .ok (stack, already_on)
  | t :: ts, stack, already_on =>
    match already_on[t]? with
    | none => .error .outOfBounds
    | some true => add_state_loop call ts stack already_on
    | some false =>
      match call t stack already_on with
      | .error e => .error e
      | .ok (stack1, on1) => add_state_loop call ts stack1 on1

/-- `add_state`: push `s`, mark it, and recurse into every neighbour that is
not marked yet.  The first argument bounds the recursion depth, which makes
the definition structural; every nested call marks a state that was unmarked,
so a bound above the number of unmarked cells is never used up
(`add_state_pushed`), and the callers pass `size + 1`. -/
def add_state (nfa : Graph) : Nat → Nat → Stack → List Bool → Except Fault (Stack × List Bool)
  | 0, _, _, _ => .error .outOfFuel
  | fuel + 1, s, stack, already_on =>
    if s < already_on.length then
      match nfa.adj[s]? with
      | none => .error .outOfBounds
      | some adj_list =>
        add_state_loop (add_state nfa fuel) adj_list (push stack s) (already_on.set s true)
    else .error .outOfBounds

/-- The first `while` loop of `make_next_moves`: pop every old state and, when
its value is `c` or `'.'`, add the closure of its successor to `new_states`. -/
def make_next_moves_scan (nfa : Graph) (c : Char) :
    Stack → Stack → List Bool → Except Fault (Stack × List Bool)
  | [], new_states, already_on => .ok (new_states, already_on)
  | s :: old_states, new_states, already_on =>
    match nfa.values[s]? with
    | none => .error .outOfBounds
    | some v =>
      if v = c ∨ v = '.' then
        match already_on[s + 1]? with
        | none => .error .outOfBounds
        | some true => make_next_moves_scan nfa c old_states new_states already_on
        | some false =>
          match add_state nfa (nfa.size + 1) (s + 1) new_states already_on with
          | .error e => .error e
          | .ok (new1, on1) => make_next_moves_scan nfa c old_states new1 on1
      else make_next_moves_scan nfa c old_states new_states already_on

/-- The second `while` loop of `make_next_moves`: move every new state onto
`old_states` and clear its mark. -/
def make_next_moves_flush : Stack → Stack → List Bool → Except Fault (Stack × List Bool)
  | [], old_states, already_on => .ok (old_states, already_on)
  | s :: new_states, old_states, already_on =>
    if s < already_on.length then
      make_next_moves_flush new_states (push old_states s) (already_on.set s false)
    else .error .outOfBounds

/-- `make_next_moves`: returns `old_states`, `new_states` and `already_on` as
the call leaves them. -/
def make_next_moves (nfa : Graph) (c : Char) (old_states new_states : Stack)
    (already_on : List Bool) : Except Fault (Stack × Stack × List Bool) :=
  match make_next_moves_scan nfa c old_states new_states already_on with
  | .error e => .error e
  | .ok (new1, on1) =>
    match make_next_moves_flush new1 [] on1 with
    | .error e => .error e
    | .ok (old2, on2) => .ok (old2, [], on2)

/-- `epsilon_closure`: `add_state` from state 0 with a buffer of its own. -/
def epsilon_closure (nfa : Graph) (stack : Stack) : Except Fault Stack :=
  match add_state nfa (nfa.size + 1) 0 stack (init_bool_buffer nfa.size false) with
  | .error e => .error e
  | .ok (stack1, _) => .ok stack1

/-- The `for` loop of `match` over the text. -/
def match_loop (nfa : Graph) : List Char → Stack → Stack → List Bool →
    Except Fault (Stack × Stack × List Bool)
  | [], old_states, new_states, already_on => .ok (old_states, new_states, already_on)
  | c :: text, old_states, new_states, already_on =>
    match make_next_moves nfa c old_states new_states already_on with
    | .error e => .error e
    | .ok (old1, new1, on1) => match_loop nfa text old1 new1 on1

/-- The final `while` loop of `match`: pop until a state equals `end`. -/
def match_final (e : Int) : Stack → Bool
  | [] => false
  | s :: old_states => if (s : Int) = e then true else match_final e old_states

/-- The function `match` of the source (a keyword here, hence the name). -/
def match_nfa (nfa : Graph) (text : List Char) : Except Fault Bool :=
  match epsilon_closure nfa [] with
  | .error e => .error e
  | .ok old_states =>
    match match_loop nfa text old_states [] (init_bool_buffer nfa.size false) with
    | .error e => .error e
    | .ok (old1, _, _) => .ok (match_final ((nfa.size : Int) - 1) old1)

/-- The pipeline of `main`: compile the pattern, run the text, the printed
boolean being the result. -/
def main (pattern text : List Char) : Except Fault Bool :=
  match build_nfa pattern with
  | .error e => .error e
  | .ok nfa => match_nfa nfa text

/-! ## Epsilon reachability -/

/-- An epsilon edge `u → v`: `v` occurs in the adjacency list of `u`. -/
def Edge (g : Graph) (u v : Nat) : Prop := ∃ l, g.adj[u]? = some l ∧ v ∈ l

/-- Reachability by zero or more epsilon edges. -/
def Reach (g : Graph) : Nat → Nat → Prop := Relation.ReflTransGen (Edge g)

/-- What a call of `add_state` (roots `[s]`) or a run of its loop (roots the
adjacency list) leaves behind: the states `pushed` above the old stack are
distinct, were unmarked before and are exactly the newly marked ones, every
root is marked, every pushed state is reachable from a root, and every
successor of a pushed state is marked. -/
def Pushed (g : Graph) (roots : List Nat) (stack : Stack) (buf : List Bool)
    (r : Stack × List Bool) : Prop :=
  ∃ pushed : List Nat, r.1 = pushed ++ stack ∧ r.2.length = buf.length ∧
    r.2.count false ≤ buf.count false ∧ pushed.Nodup ∧
    (∀ t ∈ pushed, buf[t]? = some false) ∧
    (∀ t, r.2[t]? = some true ↔ (buf[t]? = some true ∨ t ∈ pushed)) ∧
    (∀ t ∈ roots, r.2[t]? = some true) ∧
    (∀ x ∈ pushed, ∃ t ∈ roots, Reach g t x) ∧
    (∀ u ∈ pushed, ∀ v, Edge g u v → r.2[v]? = some true)

instance decidableEdge (g : Graph) (u v : Nat) : Decidable (Edge g u v) :=
  match h : g.adj[u]? with
  | none => isFalse (fun ⟨_, hl, _⟩ => by rw [h] at hl; cases hl)
  | some l =>
    if hv : v ∈ l then isTrue ⟨l, h, hv⟩
    else isFalse (fun ⟨_, hl, hv2⟩ => by rw [h] at hl; cases hl; exact hv hv2)

/-- The marks are closed under epsilon edges. -/
def Closed (g : Graph) (buf : List Bool) : Prop :=
  ∀ u v, buf[u]? = some true → Edge g u v → buf[v]? = some true

/-- The edges of the graph stay inside it, and the two arrays have `size` cells. -/
def InRange (g : Graph) : Prop :=
  g.adj.length = g.size ∧ g.values.length = g.size ∧ ∀ l ∈ g.adj, ∀ v ∈ l, v < g.size

instance decidableInRange (g : Graph) : Decidable (InRange g) := by
  unfold InRange
  infer_instance

/-- The value of state `s` is `c` or `'.'`: the test of `make_next_moves`. -/
def Fires (g : Graph) (c : Char) (s : Nat) : Prop :=
  ∃ v, g.values[s]? = some v ∧ (v = c ∨ v = '.')

/-- The specification's `epsilonClosure(state, automaton)`. -/
def epsilonClosure (g : Graph) (state : Nat) : Set Nat := {t | Reach g state t}

/-- The specification's step 2 of `matches`, for one character `c`: the union of
`epsilonClosure(s+1)` over the `s` in `active` with `s < N` whose tag is `c`
or `'.'`. -/
def specStep (g : Graph) (N : Nat) (active : Set Nat) (c : Char) : Set Nat :=
  {t | ∃ s ∈ active, s < N ∧ (g.values[s]? = some c ∨ g.values[s]? = some '.') ∧
    t ∈ epsilonClosure g (s + 1)}

/-- The specification's active set after the whole text: `A_0` is the closure of
state 0, each character applies `specStep`. -/
def specActive (g : Graph) (N : Nat) (text : List Char) : Set Nat :=
  text.foldl (specStep g N) (epsilonClosure g 0)

/-- The specification's `matches`: the accept state `N` is active at the end. -/
def specMatches (g : Graph) (N : Nat) (text : List Char) : Prop :=
  N ∈ specActive g N text

/-- The characters the pattern grammar gives a meaning of their own. -/
def isMeta (c : Char) : Prop :=
  c = '.' ∨ c = '(' ∨ c = ')' ∨ c = '|' ∨ c = '*' ∨ c = '?'

instance decidableIsMeta (c : Char) : Decidable (isMeta c) := by
  unfold isMeta
  infer_instance

/-- The graph `build_nfa` hands to `build_transitions`, after `init_graph` and
`set_graph_vals_from_string`: the pattern and its terminator as values, no
edge.  For a pattern without operators it is also the graph `build_nfa`
returns. -/
def plainGraph (p : List Char) : Graph :=
  { size := p.length + 1, values := p ++ [NUL], adj := List.replicate (p.length + 1) [] }

/-- A graph with two states whose last state carries the value `'.'`. -/
def dotEndGraph : Graph := { size := 2, values := ['a', '.'], adj := [[1], []] }

/-- The graph `build_nfa` returns for the pattern `(a|b)*`. -/
def altStarGraph : Graph :=
  { size := 7, values := ['(', 'a', '|', 'b', ')', '*', NUL],
    adj := [[1, 3, 5], [], [4], [], [5], [0, 6], []] }

/-- The graph `build_nfa` returns for the pattern `a?`. -/
def optGraph : Graph :=
  { size := 3, values := ['a', '?', NUL], adj := [[1], [2], []] }

/-- The graph `build_nfa` returns for the pattern `(ab)*`. -/
def groupStarGraph : Graph :=
  { size := 6, values := ['(', 'a', 'b', ')', '*', NUL],
    adj := [[1, 4], [], [], [4], [0, 5], []] }

/-- The graph `build_nfa` returns for the pattern `a*`. -/
def starGraph : Graph :=
  { size := 3, values := ['a', '*', NUL], adj := [[1], [0, 2], []] }

/-- The graph `build_nfa` returns for the pattern `.`. -/
def dotGraph : Graph :=
  { size := 2, values := ['.', NUL], adj := [[], []] }

/-- The text made of `n` copies of the word `w`. -/
def repeatText (w : List Char) : Nat → List Char
  | 0 => []
  | n + 1 => w ++ repeatText w n

/-- The first `if` / `else if` chain of an iteration of `build_transitions`, for
the character `c = re[i]`: the graph, the operator stack and `lp` as it leaves
them. -/
def build_group (nfa : Graph) (ops : Stack) (i : Nat) (c : Char) :
    Except Fault (Graph × Stack × Nat) :=
  if c = '(' ∨ c = '|' then
    pure (nfa, push ops i, i)
  else if c = ')' then do
    let (or, ops1) ← pop ops
    let cm ← rd nfa.values or
    if cm = '|' then do
      let (lp, ops2) ← pop ops1
      let g1 ← add_edge nfa lp (or + 1)
      let g2 ← add_edge g1 or i
      pure (g2, ops2, lp)
    else pure (nfa, ops1, or)
  else pure (nfa, ops, i)

/-- The last three `if`s of an iteration of `build_transitions`, for
`c = re[i]` and `cn = re[i+1]`: the edges of a following `*` or `?` around the
unit that starts at `lp`, and the pass-through edge of an operator. -/
def build_quant (nfa1 : Graph) (lp i : Nat) (c cn : Char) : Except Fault Graph := do
  let nfa2 ← (if cn = '*' then do
      let g1 ← add_edge nfa1 lp (i + 1)
      add_edge g1 (i + 1) lp
    else pure nfa1 : Except Fault Graph)
  let nfa3 ← (if cn = '?' then add_edge nfa2 lp (i + 1) else pure nfa2 : Except Fault Graph)
  if c = '(' ∨ c = '*' ∨ c = ')' ∨ c = '?' then add_edge nfa3 i (i + 1) else pure nfa3

/-- The operator stack after iteration `i` of `build_transitions` on the
pattern `p`, `none` when the iteration pops the empty stack. -/
def opsStep (p : List Char) (i : Nat) (ops : Stack) : Option Stack :=
  match p[i]? with
  | none => some ops
  | some c =>
    if c = '(' ∨ c = '|' then some (i :: ops)
    else if c = ')' then
      match ops with
      | [] => none
      | m :: rest =>
        if p[m]? = some '|' then
          match rest with
          | [] => none
          | _ :: rest1 => some rest1
        else some rest
    else some ops

/-- A graph under construction for the pattern `p`: one state per character and
one for the terminator, the pattern as values, every edge inside the graph. -/
def Built (p : List Char) (g : Graph) : Prop :=
  g.size = p.length + 1 ∧ g.values = p ++ [NUL] ∧ g.adj.length = p.length + 1 ∧
    ∀ l ∈ g.adj, ∀ v ∈ l, v < p.length + 1

/-- The operator stack after the first `k` iterations of `build_transitions` on
the pattern `p`, started empty; `none` when one of them pops the empty stack. -/
def opsRun (p : List Char) : Nat → Option Stack
  | 0 => some []
  | k + 1 =>
    match opsRun p k with
    | none => none
    | some ops => opsStep p k ops

/-- Balanced parentheses: every prefix of the pattern has at least as many `(`
as `)`, and the whole pattern has as many of the one as of the other. -/
def Balanced (p : List Char) : Prop :=
  (∀ k, k ≤ p.length → (p.take k).count ')' ≤ (p.take k).count '(') ∧
    p.count '(' = p.count ')'

instance decidableBalanced (p : List Char) : Decidable (Balanced p) := by
  unfold Balanced
  infer_instance

/-- The number of entries of the operator stack that are indices of a `(`. -/
def openEntries (p : List Char) (ops : Stack) : Nat :=
  ops.countP (fun j => decide (p[j]? = some '('))

/-- An open group during the scan of a pattern: the index of its `(` and the
indices of its top-level `|` read so far, latest first. -/
abbrev Frame := Nat × List Nat

/-- The group structure after reading the character `c` at index `i`, from the
open groups (innermost first) and the `|` outside all groups (latest first)
before it.  A `(` opens a group, a `|` joins the innermost open group or, when
none is open, the outside ones, a `)` closes the innermost open group.  The
result is `none` when a `)` has no `(` to close or closes a group with two or
more top-level `|`. -/
def groupStep (i : Nat) (c : Char) (st : List Frame × List Nat) :
    Option (List Frame × List Nat) :=
  if c = '(' then some ((i, []) :: st.1, st.2)
  else if c = '|' then
    match st.1 with
    | [] => some ([], i :: st.2)
    | (o, bs) :: fs => some ((o, i :: bs) :: fs, st.2)
  else if c = ')' then
    match st.1 with
    | [] => none
    | (_, []) :: fs => some (fs, st.2)
    | (_, [_]) :: fs => some (fs, st.2)
    | (_, _ :: _ :: _) :: _ => none
  else some st

/-- The group structure of the first `k` characters of the pattern. -/
def groupsAt (p : List Char) : Nat → Option (List Frame × List Nat)
  | 0 => some ([], [])
  | k + 1 =>
    match groupsAt p k, p[k]? with
    | some st, some c => groupStep k c st
    | _, _ => none

/-- The operator-stack entries of the open groups, innermost group on top and,
within a group, its `|` above its `(`. -/
def frameEntries : List Frame → Stack
  | [] => []
  | (o, bs) :: fs => bs ++ o :: frameEntries fs

/-- A step of the simulation has not exhausted the recursion bound and, when it
returned, left a buffer of `size` cells. -/
def Bounded (size : Nat) : Except Fault (Stack × List Bool) → Prop
  | .error e => e ≠ .outOfFuel
  | .ok r => r.2.length = size

/-- The graph `add_edge g u v` returns when the adjacency list of `u` is `l`. -/
def withEdge (g : Graph) (u : Nat) (l : List Nat) (v : Nat) : Graph :=
  { g with adj := g.adj.set u (l ++ [v]) }

/-! ## Correctness of the closure computation -/

theorem getElem?_false_of_not_true {buf : List Bool} {t : Nat} (ht : t < buf.length)
    (h : buf[t]? ≠ some true) : buf[t]? = some false := by
  rw [List.getElem?_eq_getElem ht] at h ⊢
  cases hb : buf[t] with
  | false => rfl
  | true => rw [hb] at h; exact absurd rfl h

theorem lt_length_of_getElem? {α : Type} {l : List α} {t : Nat} {a : α}
    (h : l[t]? = some a) : t < l.length := by
  rcases List.getElem?_eq_some.1 h with ⟨ht, _⟩
  exact ht

theorem add_state_loop_pushed (g : Graph) (fuel : Nat)
    (ih : ∀ (s : Nat) (stack : Stack) (buf : List Bool), g.adj.length = buf.length →
      buf[s]? = some false → buf.count false ≤ fuel →
      ∃ r, add_state g fuel s stack buf = .ok r ∧ Pushed g [s] stack buf r) :
    ∀ (ts : List Nat) (stack : Stack) (buf : List Bool), g.adj.length = buf.length →
      (∀ t ∈ ts, t < buf.length) → buf.count false ≤ fuel →
      ∃ r, add_state_loop (add_state g fuel) ts stack buf = .ok r ∧ Pushed g ts stack buf r := by
  intro ts
  induction ts with
  | nil =>
    intro stack buf _ _ _
    exact ⟨(stack, buf), rfl, [], by simp⟩
  | cons t ts iht =>
    intro stack buf hlen hts hcnt
    have ht : t < buf.length := hts t (List.mem_cons_self _ _)
    have hts2 : ∀ x ∈ ts, x < buf.length := fun x hx => hts x (List.mem_cons_of_mem _ hx)
    by_cases hb : buf[t]? = some true
    · obtain ⟨r, hr, pushed, h1, h2, h3, h4, h5, h6, h7, h8, h9⟩ := iht stack buf hlen hts2 hcnt
      refine ⟨r, ?_, pushed, h1, h2, h3, h4, h5, h6, ?_, ?_, h9⟩
      · simp only [add_state_loop, hb]; exact hr
      · intro x hx
        rcases List.mem_cons.1 hx with rfl | hx
        · exact (h6 x).2 (Or.inl hb)
        · exact h7 x hx
      · intro x hx
        obtain ⟨y, hy, hxy⟩ := h8 x hx
        exact ⟨y, List.mem_cons_of_mem _ hy, hxy⟩
    · have hb2 : buf[t]? = some false := getElem?_false_of_not_true ht hb
      obtain ⟨r1, hr1, p1, a1, a2, a3, a4, a5, a6, a7, a8, a9⟩ := ih t stack buf hlen hb2 hcnt
      obtain ⟨r, hr, p2, b1, b2, b3, b4, b5, b6, b7, b8, b9⟩ :=
        iht r1.1 r1.2 (by rw [a2]; exact hlen) (by rw [a2]; exact hts2) (le_trans a3 hcnt)
      refine ⟨r, ?_, p2 ++ p1, ?_, by rw [b2, a2], le_trans b3 a3, ?_, ?_, ?_, ?_, ?_, ?_⟩
      · simp only [add_state_loop, hb2, hr1]; exact hr
      · rw [b1, a1, List.append_assoc]
      · refine List.nodup_append.2 ⟨b4, a4, ?_⟩
        intro x hx2 hx1
        have h1 : r1.2[x]? = some true := (a6 x).2 (Or.inr hx1)
        have h2 := b5 x hx2
        rw [h1] at h2
        cases h2
      · intro x hx
        rcases List.mem_append.1 hx with hx | hx
        · have h2 := b5 x hx
          have hxl : x < buf.length := by rw [← a2]; exact lt_length_of_getElem? h2
          apply getElem?_false_of_not_true hxl
          intro hc
          have h1 : r1.2[x]? = some true := (a6 x).2 (Or.inl hc)
          rw [h1] at h2
          cases h2
        · exact a5 x hx
      · intro x
        rw [b6 x, a6 x, List.mem_append]
        tauto
      · intro x hx
        rcases List.mem_cons.1 hx with rfl | hx
        · exact (b6 x).2 (Or.inl (a7 x (List.mem_singleton_self _)))
        · exact b7 x hx
      · intro x hx
        rcases List.mem_append.1 hx with hx | hx
        · obtain ⟨y, hy, hxy⟩ := b8 x hx
          exact ⟨y, List.mem_cons_of_mem _ hy, hxy⟩
        · obtain ⟨y, hy, hxy⟩ := a8 x hx
          rw [List.mem_singleton] at hy
          subst hy
          exact ⟨y, List.mem_cons_self _ _, hxy⟩
      · intro u hu v huv
        rcases List.mem_append.1 hu with hu | hu
        · exact b9 u hu v huv
        · exact (b6 v).2 (Or.inl (a9 u hu v huv))

theorem add_state_pushed (g : Graph) (hr : ∀ l ∈ g.adj, ∀ v ∈ l, v < g.adj.length) :
    ∀ (fuel s : Nat) (stack : Stack) (buf : List Bool), g.adj.length = buf.length →
      buf[s]? = some false → buf.count false ≤ fuel →
      ∃ r, add_state g fuel s stack buf = .ok r ∧ Pushed g [s] stack buf r := by
  intro fuel
  induction fuel with
  | zero =>
    intro s stack buf _ hs hcnt
    have hmem : false ∈ buf := List.mem_iff_getElem?.2 ⟨s, hs⟩
    have := List.count_pos_iff.2 hmem
    omega
  | succ fuel ih =>
    intro s stack buf hlen hs hcnt
    have hsl : s < buf.length := lt_length_of_getElem? hs
    have hsv : buf[s] = false := by
      rw [List.getElem?_eq_getElem hsl] at hs
      exact Option.some.inj hs
    have hsa : s < g.adj.length := by rw [hlen]; exact hsl
    have hadj : g.adj[s]? = some g.adj[s] := List.getElem?_eq_getElem hsa
    have hc1 : (buf.set s true).count false + 1 = buf.count false := by
      have h0 := List.count_set true false buf s hsl
      have hpos : 0 < buf.count false :=
        List.count_pos_iff.2 (List.mem_iff_getElem?.2 ⟨s, hs⟩)
      simp [hsv] at h0
      omega
    obtain ⟨r, hrr, p, a1, a2, a3, a4, a5, a6, a7, a8, a9⟩ :=
      add_state_loop_pushed g fuel ih g.adj[s] (push stack s)
        (buf.set s true) (by simpa using hlen)
        (by
          intro t ht
          rw [List.length_set, ← hlen]
          exact hr _ (List.getElem_mem _) t ht)
        (by omega)
    have hset : ∀ t, (buf.set s true)[t]? = some true ↔ (buf[t]? = some true ∨ t = s) := by
      intro t
      rw [List.getElem?_set]
      by_cases hts : s = t
      · subst hts; simp [hsl]
      · simp [hts]; intro h; exact absurd h.symm hts
    refine ⟨r, ?_, p ++ [s], ?_, by rw [a2, List.length_set], by omega, ?_, ?_, ?_, ?_, ?_, ?_⟩
    · simp only [add_state, hsl, if_true, hadj]; exact hrr
    · rw [a1]; simp [push]
    · refine List.nodup_append.2 ⟨a4, List.nodup_singleton _, ?_⟩
      intro x hx hxs
      rw [List.mem_singleton] at hxs
      subst hxs
      have := a5 x hx
      rw [List.getElem?_set_self hsl] at this
      cases this
    · intro x hx
      rcases List.mem_append.1 hx with hx | hx
      · have h2 := a5 x hx
        by_cases hxs : s = x
        · subst hxs; exact hs
        · rwa [List.getElem?_set_ne hxs] at h2
      · rw [List.mem_singleton] at hx; subst hx; exact hs
    · intro t
      rw [a6 t, hset t, List.mem_append, List.mem_singleton]
      tauto
    · intro t ht
      rw [List.mem_singleton] at ht
      subst ht
      exact (a6 t).2 (Or.inl ((hset t).2 (Or.inr rfl)))
    · intro x hx
      refine ⟨s, List.mem_singleton_self _, ?_⟩
      rcases List.mem_append.1 hx with hx | hx
      · obtain ⟨y, hy, hyx⟩ := a8 x hx
        exact Relation.ReflTransGen.head ⟨_, hadj, hy⟩ hyx
      · rw [List.mem_singleton] at hx; subst hx; exact Relation.ReflTransGen.refl
    · intro u hu v huv
      rcases List.mem_append.1 hu with hu | hu
      · exact a9 u hu v huv
      · rw [List.mem_singleton] at hu
        subst hu
        obtain ⟨l, hl, hv⟩ := huv
        rw [hadj] at hl
        cases hl
        exact a7 v hv

theorem closed_reach {g : Graph} {buf : List Bool} (hc : Closed g buf) {s t : Nat}
    (hs : buf[s]? = some true) (hst : Reach g s t) : buf[t]? = some true := by
  induction hst with
  | refl => exact hs
  | tail _ huv ih => exact hc _ _ ih huv

/-- A top-level call of `add_state` on closed marks: the pushed states are new
and distinct, and the marks become the old ones plus everything reachable
from `s`. -/
theorem add_state_closure (g : Graph) (hr : ∀ l ∈ g.adj, ∀ v ∈ l, v < g.adj.length)
    (fuel s : Nat) (stack : Stack) (buf : List Bool) (hlen : g.adj.length = buf.length)
    (hs : buf[s]? = some false) (hfuel : buf.count false ≤ fuel) (hcl : Closed g buf) :
    ∃ pushed buf1, add_state g fuel s stack buf = .ok (pushed ++ stack, buf1) ∧
      buf1.length = buf.length ∧ pushed.Nodup ∧
      (∀ t ∈ pushed, buf[t]? = some false) ∧
      (∀ t, buf1[t]? = some true ↔ (buf[t]? = some true ∨ t ∈ pushed)) ∧
      (∀ t, buf1[t]? = some true ↔ (buf[t]? = some true ∨ Reach g s t)) ∧
      Closed g buf1 := by
  obtain ⟨r, hrr, p, a1, a2, _, a4, a5, a6, a7, a8, a9⟩ :=
    add_state_pushed g hr fuel s stack buf hlen hs hfuel
  have hcl1 : Closed g r.2 := by
    intro u v hu huv
    rcases (a6 u).1 hu with h | h
    · exact (a6 v).2 (Or.inl (hcl u v h huv))
    · exact a9 u h v huv
  refine ⟨p, r.2, ?_, a2, a4, a5, a6, ?_, hcl1⟩
  · rw [hrr, ← a1]
  · intro t
    constructor
    · intro ht
      rcases (a6 t).1 ht with h | h
      · exact Or.inl h
      · obtain ⟨y, hy, hyt⟩ := a8 t h
        rw [List.mem_singleton] at hy
        subst hy
        exact Or.inr hyt
    · rintro (h | h)
      · exact (a6 t).2 (Or.inl h)
      · exact closed_reach hcl1 (a7 s (List.mem_singleton_self _)) h

/-- The first loop of `make_next_moves`, started with `new_states` holding
exactly the marked states: it adds the closures of the successors of the old
states that fire, provided a state that fires has its successor in range. -/
theorem make_next_moves_scan_spec (g : Graph) (c : Char) (hg : InRange g)
    (hlast : ∀ s, Fires g c s → s + 1 < g.size) :
    ∀ (old new : Stack) (buf : List Bool), (∀ s ∈ old, s < g.size) → buf.length = g.size →
      new.Nodup → (∀ t, t ∈ new ↔ buf[t]? = some true) → Closed g buf →
      ∃ new1 buf1, make_next_moves_scan g c old new buf = .ok (new1, buf1) ∧
        buf1.length = g.size ∧ new1.Nodup ∧ (∀ t, t ∈ new1 ↔ buf1[t]? = some true) ∧
        Closed g buf1 ∧
        (∀ t, t ∈ new1 ↔ (t ∈ new ∨ ∃ s ∈ old, Fires g c s ∧ Reach g (s + 1) t)) := by
  obtain ⟨hadj, hval, hedges⟩ := hg
  have hr : ∀ l ∈ g.adj, ∀ v ∈ l, v < g.adj.length := by rw [hadj]; exact hedges
  intro old
  induction old with
  | nil =>
    intro new buf _ hlen hnd hsync hcl
    exact ⟨new, buf, rfl, hlen, hnd, hsync, hcl, by simp⟩
  | cons s old ih =>
    intro new buf hold hlen hnd hsync hcl
    have hs : s < g.size := hold s (List.mem_cons_self _ _)
    have hold2 : ∀ x ∈ old, x < g.size := fun x hx => hold x (List.mem_cons_of_mem _ hx)
    have hsv : s < g.values.length := by rw [hval]; exact hs
    have hv : g.values[s]? = some g.values[s] := List.getElem?_eq_getElem hsv
    by_cases hf : g.values[s] = c ∨ g.values[s] = '.'
    · have hfire : Fires g c s := ⟨_, hv, hf⟩
      have hs1 : s + 1 < buf.length := by rw [hlen]; exact hlast s hfire
      by_cases hb : buf[s + 1]? = some true
      · obtain ⟨new1, buf1, h1, h2, h3, h4, h5, h6⟩ := ih new buf hold2 hlen hnd hsync hcl
        refine ⟨new1, buf1, ?_, h2, h3, h4, h5, ?_⟩
        · simp only [make_next_moves_scan, hv, hf, if_true, hb]; exact h1
        · intro t
          rw [h6 t]
          constructor
          · rintro (h | ⟨x, hx, hxf, hxt⟩)
            · exact Or.inl h
            · exact Or.inr ⟨x, List.mem_cons_of_mem _ hx, hxf, hxt⟩
          · rintro (h | ⟨x, hx, hxf, hxt⟩)
            · exact Or.inl h
            · rcases List.mem_cons.1 hx with rfl | hx
              · exact Or.inl ((hsync t).2 (closed_reach hcl hb hxt))
              · exact Or.inr ⟨x, hx, hxf, hxt⟩
      · have hb2 : buf[s + 1]? = some false := getElem?_false_of_not_true hs1 hb
        obtain ⟨p, buf1, e1, e2, e3, e4, e5, e6, e7⟩ :=
          add_state_closure g hr (g.size + 1) (s + 1) new buf (by rw [hadj, hlen]) hb2
            (by have := List.count_le_length false buf; omega) hcl
        have hnd1 : (p ++ new).Nodup := by
          refine List.nodup_append.2 ⟨e3, hnd, ?_⟩
          intro x hxp hxn
          have h1 := e4 x hxp
          rw [(hsync x).1 hxn] at h1
          cases h1
        have hsync1 : ∀ t, t ∈ p ++ new ↔ buf1[t]? = some true := by
          intro t
          rw [e5 t, List.mem_append, hsync t]
          tauto
        obtain ⟨new1, buf2, h1, h2, h3, h4, h5, h6⟩ :=
          ih (p ++ new) buf1 hold2 (by rw [e2, hlen]) hnd1 hsync1 e7
        refine ⟨new1, buf2, ?_, h2, h3, h4, h5, ?_⟩
        · simp only [make_next_moves_scan, hv, hf, if_true, hb2, e1]; exact h1
        · intro t
          rw [h6 t, hsync1 t, e6 t, ← hsync t]
          constructor
          · rintro ((h | h) | ⟨x, hx, hxf, hxt⟩)
            · exact Or.inl h
            · exact Or.inr ⟨s, List.mem_cons_self _ _, hfire, h⟩
            · exact Or.inr ⟨x, List.mem_cons_of_mem _ hx, hxf, hxt⟩
          · rintro (h | ⟨x, hx, hxf, hxt⟩)
            · exact Or.inl (Or.inl h)
            · rcases List.mem_cons.1 hx with rfl | hx
              · exact Or.inl (Or.inr hxt)
              · exact Or.inr ⟨x, hx, hxf, hxt⟩
    · obtain ⟨new1, buf1, h1, h2, h3, h4, h5, h6⟩ := ih new buf hold2 hlen hnd hsync hcl
      refine ⟨new1, buf1, ?_, h2, h3, h4, h5, ?_⟩
      · simp only [make_next_moves_scan, hv, hf, if_false]; exact h1
      · intro t
        rw [h6 t]
        constructor
        · rintro (h | ⟨x, hx, hxf, hxt⟩)
          · exact Or.inl h
          · exact Or.inr ⟨x, List.mem_cons_of_mem _ hx, hxf, hxt⟩
        · rintro (h | ⟨x, hx, hxf, hxt⟩)
          · exact Or.inl h
          · rcases List.mem_cons.1 hx with rfl | hx
            · obtain ⟨v, hv2, hv3⟩ := hxf
              rw [hv] at hv2
              cases hv2
              exact absurd hv3 hf
            · exact Or.inr ⟨x, hx, hxf, hxt⟩

/-- The second loop of `make_next_moves`: the new states move to the old stack
in reverse order and exactly their marks are cleared. -/
theorem make_next_moves_flush_spec :
    ∀ (new old : Stack) (buf : List Bool), (∀ s ∈ new, s < buf.length) →
      ∃ buf1, make_next_moves_flush new old buf = .ok (new.reverse ++ old, buf1) ∧
        buf1.length = buf.length ∧
        (∀ t, buf1[t]? = some true ↔ (buf[t]? = some true ∧ t ∉ new)) := by
  intro new
  induction new with
  | nil =>
    intro old buf _
    exact ⟨buf, rfl, rfl, by simp⟩
  | cons s new ih =>
    intro old buf hnew
    have hs : s < buf.length := hnew s (List.mem_cons_self _ _)
    obtain ⟨buf1, h1, h2, h3⟩ := ih (push old s) (buf.set s false)
      (by intro x hx; rw [List.length_set]; exact hnew x (List.mem_cons_of_mem _ hx))
    refine ⟨buf1, ?_, by rw [h2, List.length_set], ?_⟩
    · simp only [make_next_moves_flush, hs, if_true]
      rw [h1]
      simp [push]
    · intro t
      rw [h3 t, List.getElem?_set, List.mem_cons]
      by_cases hst : s = t
      · subst hst; simp [hs]
      · simp [hst]
        intro _ _
        exact fun h => hst h.symm

theorem eq_replicate_of_no_mark {buf : List Bool} {n : Nat} (hlen : buf.length = n)
    (h : ∀ t : Nat, buf[t]? ≠ some true) : buf = List.replicate n false := by
  rw [List.eq_replicate_iff]
  refine ⟨hlen, ?_⟩
  intro b hb
  obtain ⟨i, hi⟩ := List.mem_iff_getElem?.1 hb
  cases b with
  | false => rfl
  | true => exact absurd hi (h i)

/-- One call of `make_next_moves` between text characters: from distinct
in-range old states, an empty `new_states` and a cleared buffer it returns
distinct in-range states, namely the closures of the successors of the old
states that fire, and leaves `new_states` empty and the buffer cleared. -/
theorem make_next_moves_spec (g : Graph) (c : Char) (hg : InRange g)
    (hlast : ∀ s, Fires g c s → s + 1 < g.size) (old : Stack)
    (hold : ∀ s ∈ old, s < g.size) :
    ∃ old1, make_next_moves g c old [] (init_bool_buffer g.size false) =
        .ok (old1, [], init_bool_buffer g.size false) ∧
      old1.Nodup ∧ (∀ t ∈ old1, t < g.size) ∧
      (∀ t, t ∈ old1 ↔ ∃ s ∈ old, Fires g c s ∧ Reach g (s + 1) t) := by
  have hoff : ∀ t : Nat, (init_bool_buffer g.size false)[t]? ≠ some true := by
    intro t
    simp only [init_bool_buffer, List.getElem?_replicate]
    split <;> simp
  obtain ⟨new1, buf1, h1, h2, h3, h4, _, h6⟩ :=
    make_next_moves_scan_spec g c hg hlast old [] (init_bool_buffer g.size false) hold
      (by simp [init_bool_buffer]) List.nodup_nil
      (by intro t; simp only [List.not_mem_nil, false_iff]; exact hoff t)
      (by intro u v hu; exact absurd hu (hoff u))
  have hrange : ∀ t ∈ new1, t < buf1.length := fun t ht =>
    lt_length_of_getElem? ((h4 t).1 ht)
  obtain ⟨buf2, f1, f2, f3⟩ := make_next_moves_flush_spec new1 [] buf1 hrange
  have hbuf2 : buf2 = init_bool_buffer g.size false := by
    apply eq_replicate_of_no_mark (by rw [f2, h2])
    intro t ht
    have := (f3 t).1 ht
    exact this.2 ((h4 t).2 this.1)
  refine ⟨new1.reverse, ?_, List.nodup_reverse.2 h3, ?_, ?_⟩
  · simp only [make_next_moves, h1, f1, hbuf2, List.append_nil]
  · intro t ht
    rw [← h2]
    exact hrange t (List.mem_reverse.1 ht)
  · intro t
    rw [List.mem_reverse, h6 t]
    simp

/-- The initial `epsilon_closure`: the stack holds, once each, the states
reachable from state 0. -/
theorem epsilon_closure_spec (g : Graph) (hg : InRange g) (hpos : 0 < g.size) :
    ∃ old, epsilon_closure g [] = .ok old ∧ old.Nodup ∧ (∀ t ∈ old, t < g.size) ∧
      (∀ t, t ∈ old ↔ Reach g 0 t) := by
  obtain ⟨hadj, _, hedges⟩ := hg
  have hoff : ∀ t : Nat, (init_bool_buffer g.size false)[t]? ≠ some true := by
    intro t
    simp only [init_bool_buffer, List.getElem?_replicate]
    split <;> simp
  obtain ⟨p, buf1, e1, e2, e3, _, e5, e6, _⟩ :=
    add_state_closure g (by rw [hadj]; exact hedges) (g.size + 1) 0 []
      (init_bool_buffer g.size false) (by simp [init_bool_buffer, hadj])
      (by simp [init_bool_buffer, List.getElem?_replicate, hpos])
      (by
        have := List.count_le_length false (init_bool_buffer g.size false)
        simp only [init_bool_buffer, List.length_replicate] at this ⊢
        omega)
      (by intro u v hu; exact absurd hu (hoff u))
  refine ⟨p, ?_, e3, ?_, ?_⟩
  · simp only [epsilon_closure, e1, List.append_nil]
  · intro t ht
    have h1 : buf1[t]? = some true := (e5 t).2 (Or.inr ht)
    have := lt_length_of_getElem? h1
    rw [e2] at this
    simpa [init_bool_buffer] using this
  · intro t
    have h5 := e5 t
    have h6 := e6 t
    have hn := hoff t
    constructor
    · intro ht
      rcases h6.1 (h5.2 (Or.inr ht)) with h | h
      · exact absurd h hn
      · exact h
    · intro ht
      rcases h5.1 (h6.2 (Or.inr ht)) with h | h
      · exact absurd h hn
      · exact h

theorem fires_iff (g : Graph) (c : Char) (s : Nat) :
    Fires g c s ↔ (g.values[s]? = some c ∨ g.values[s]? = some '.') := by
  constructor
  · rintro ⟨v, hv, rfl | rfl⟩
    · exact Or.inl hv
    · exact Or.inr hv
  · rintro (h | h)
    · exact ⟨c, h, Or.inl rfl⟩
    · exact ⟨'.', h, Or.inr rfl⟩

theorem fires_lt (g : Graph) (N : Nat) (hg : InRange g) (hN : g.size = N + 1) (c : Char)
    (hlast : ¬ Fires g c N) (s : Nat) (hs : Fires g c s) : s < N := by
  obtain ⟨v, hv, _⟩ := id hs
  have h1 := lt_length_of_getElem? hv
  rw [hg.2.1, hN] at h1
  have h2 : s ≠ N := by
    rintro rfl
    exact hlast hs
  omega

/-- The text loop of `match` keeps the old stack equal, as a set, to the
specification's active set. -/
theorem match_loop_spec (g : Graph) (N : Nat) (hg : InRange g) (hN : g.size = N + 1) :
    ∀ (text : List Char), (∀ c ∈ text, ¬ Fires g c N) →
      ∀ old : Stack, (∀ s ∈ old, s < g.size) →
      ∃ old1, match_loop g text old [] (init_bool_buffer g.size false) =
          .ok (old1, [], init_bool_buffer g.size false) ∧
        (∀ t ∈ old1, t < g.size) ∧
        (∀ t, t ∈ old1 ↔ t ∈ text.foldl (specStep g N) {x | x ∈ old}) := by
  intro text
  induction text with
  | nil =>
    intro _ old hold
    exact ⟨old, rfl, hold, by simp⟩
  | cons c text ih =>
    intro htext old hold
    have hc : ¬ Fires g c N := htext c (List.mem_cons_self _ _)
    have hlast : ∀ s, Fires g c s → s + 1 < g.size := by
      intro s hs
      have := fires_lt g N hg hN c hc s hs
      omega
    obtain ⟨old1, h1, _, h3, h4⟩ := make_next_moves_spec g c hg hlast old hold
    obtain ⟨old2, k1, k2, k3⟩ :=
      ih (fun d hd => htext d (List.mem_cons_of_mem _ hd)) old1 h3
    have hstep : specStep g N {x | x ∈ old} c = {x | x ∈ old1} := by
      ext t
      simp only [specStep, epsilonClosure, Set.mem_setOf_eq]
      rw [h4 t]
      constructor
      · rintro ⟨x, hx, _, hxf, hxt⟩
        exact ⟨x, hx, (fires_iff g c x).2 hxf, hxt⟩
      · rintro ⟨x, hx, hxf, hxt⟩
        exact ⟨x, hx, fires_lt g N hg hN c hc x hxf, (fires_iff g c x).1 hxf, hxt⟩
    refine ⟨old2, ?_, k2, ?_⟩
    · simp only [match_loop, h1]; exact k1
    · intro t
      rw [k3 t, List.foldl_cons, hstep]

theorem match_final_iff (e : Int) (old : Stack) :
    match_final e old = true ↔ ∃ s ∈ old, (s : Int) = e := by
  induction old with
  | nil => simp [match_final]
  | cons s old ih =>
    simp only [match_final, List.mem_cons]
    by_cases h : (s : Int) = e
    · simp only [h, if_true, true_iff]
      exact ⟨s, Or.inl rfl, h⟩
    · simp only [h, if_false, ih]
      constructor
      · rintro ⟨x, hx, hxe⟩
        exact ⟨x, Or.inr hx, hxe⟩
      · rintro ⟨x, rfl | hx, hxe⟩
        · exact absurd hxe h
        · exact ⟨x, hx, hxe⟩

/-- The stack-based `match` refines the set-based simulation of the
specification, on every graph with `N + 1` states and in-range edges whose
state `N` does not fire on a character of the text. -/
theorem match_nfa_refines (g : Graph) (N : Nat) (text : List Char) (hg : InRange g)
    (hN : g.size = N + 1) (hlast : ∀ c ∈ text, ¬ Fires g c N) :
    ∃ b, match_nfa g text = .ok b ∧ (b = true ↔ specMatches g N text) := by
  obtain ⟨old, h1, _, h3, h4⟩ := epsilon_closure_spec g hg (by omega)
  obtain ⟨old1, k1, _, k3⟩ := match_loop_spec g N hg hN text hlast old h3
  have hset : {x | x ∈ old} = epsilonClosure g 0 := by
    ext t
    simp only [epsilonClosure, Set.mem_setOf_eq]
    exact h4 t
  refine ⟨match_final ((g.size : Int) - 1) old1, ?_, ?_⟩
  · simp only [match_nfa, h1, k1]
  · rw [match_final_iff, specMatches, specActive, ← hset, ← k3 N]
    constructor
    · rintro ⟨s, hs, hse⟩
      have : s = N := by rw [hN] at hse; push_cast at hse; omega
      rw [← this]; exact hs
    · intro h
      exact ⟨N, h, by rw [hN]; push_cast; omega⟩

/-! ## Patterns without operators -/

theorem build_step_plain (nfa : Graph) (ops : Stack) (i : Nat) (c d : Char)
    (hc : nfa.values[i]? = some c) (hd : nfa.values[i + 1]? = some d)
    (h1 : c ≠ '(') (h2 : c ≠ ')') (h3 : c ≠ '|') (h4 : c ≠ '*') (h5 : c ≠ '?')
    (h6 : d ≠ '*') (h7 : d ≠ '?') : build_step nfa ops i = .ok (nfa, ops) := by
  simp [build_step, rd, hc, hd, h1, h2, h3, h4, h5, h6, h7, bind, Except.bind, pure,
    Except.pure]

theorem build_loop_plain (nfa : Graph) (ops : Stack)
    (hall : ∀ c ∈ nfa.values, c ≠ '(' ∧ c ≠ ')' ∧ c ≠ '|' ∧ c ≠ '*' ∧ c ≠ '?') :
    ∀ k i : Nat, i + k < nfa.values.length → build_loop k i nfa ops = .ok (nfa, ops) := by
  intro k
  induction k with
  | zero => intro i _; rfl
  | succ k ih =>
    intro i hik
    have hi : i < nfa.values.length := by omega
    have hi1 : i + 1 < nfa.values.length := by omega
    obtain ⟨a1, a2, a3, a4, a5⟩ := hall _ (List.getElem_mem hi)
    obtain ⟨_, _, _, b4, b5⟩ := hall _ (List.getElem_mem hi1)
    have hstep := build_step_plain nfa ops i _ _ (List.getElem?_eq_getElem hi)
      (List.getElem?_eq_getElem hi1) a1 a2 a3 a4 a5 b4 b5
    simp only [build_loop, hstep]
    exact ih (i + 1) (by omega)

theorem build_nfa_plain (p : List Char) (hp : ∀ c ∈ p, ¬ isMeta c) :
    build_nfa p = .ok (plainGraph p) := by
  have hall : ∀ c ∈ p ++ [NUL], c ≠ '(' ∧ c ≠ ')' ∧ c ≠ '|' ∧ c ≠ '*' ∧ c ≠ '?' := by
    intro c hc
    rcases List.mem_append.1 hc with h | h
    · have := hp c h
      simp only [isMeta, not_or] at this
      exact ⟨this.2.1, this.2.2.1, this.2.2.2.1, this.2.2.2.2.1, this.2.2.2.2.2⟩
    · rw [List.mem_singleton] at h
      subst h
      decide
  have hloop := build_loop_plain (plainGraph p) [] hall p.length 0
    (by simp [plainGraph])
  have htake : List.take (p.length + 1) (p ++ [NUL]) = p ++ [NUL] :=
    List.take_of_length_le (by simp)
  simp [build_nfa, set_graph_vals_from_string, init_graph, build_transitions, bind,
    Except.bind, pure, Except.pure]
  simp only [plainGraph] at hloop
  rw [htake, hloop]
  rfl

theorem specStep_empty (g : Graph) (N : Nat) (c : Char) : specStep g N ∅ c = ∅ := by
  ext t
  simp [specStep]

theorem foldl_specStep_empty (g : Graph) (N : Nat) (text : List Char) :
    text.foldl (specStep g N) ∅ = ∅ := by
  induction text with
  | nil => rfl
  | cons c text ih => rw [List.foldl_cons, specStep_empty, ih]

theorem plainGraph_inRange (p : List Char) : InRange (plainGraph p) := by
  refine ⟨by simp [plainGraph], by simp [plainGraph], ?_⟩
  intro l hl v hv
  have : l = [] := (List.mem_replicate.1 hl).2
  subst this
  cases hv

theorem plainGraph_reach (p : List Char) (s t : Nat) : Reach (plainGraph p) s t ↔ s = t := by
  constructor
  · intro h
    induction h with
    | refl => rfl
    | tail _ huv _ =>
      obtain ⟨l, hl, hv⟩ := huv
      have hmem : l ∈ (plainGraph p).adj := List.mem_iff_getElem?.2 ⟨_, hl⟩
      have : l = [] := (List.mem_replicate.1 hmem).2
      subst this
      cases hv
  · rintro rfl
    exact Relation.ReflTransGen.refl

theorem plainGraph_step_hit (p : List Char) (j : Nat) (c : Char) (hc : p[j]? = some c) :
    specStep (plainGraph p) p.length {j} c = {j + 1} := by
  have hj : j < p.length := lt_length_of_getElem? hc
  have hv : (plainGraph p).values[j]? = some c := by
    simp only [plainGraph]
    rw [List.getElem?_append_left hj]
    exact hc
  ext t
  simp only [specStep, epsilonClosure, Set.mem_setOf_eq, Set.mem_singleton_iff,
    exists_eq_left, plainGraph_reach]
  constructor
  · rintro ⟨_, _, h⟩
    exact h.symm
  · rintro rfl
    exact ⟨hj, Or.inl hv, rfl⟩

theorem plainGraph_step_miss (p : List Char) (hp : ∀ c ∈ p, ¬ isMeta c) (j : Nat) (c : Char)
    (hc : p[j]? ≠ some c) : specStep (plainGraph p) p.length {j} c = ∅ := by
  ext t
  simp only [specStep, Set.mem_setOf_eq, Set.mem_singleton_iff, exists_eq_left,
    Set.mem_empty_iff_false, iff_false]
  rintro ⟨hj, hv, _⟩
  have hval : (plainGraph p).values[j]? = p[j]? := by
    simp only [plainGraph]
    exact List.getElem?_append_left hj
  rw [hval] at hv
  rcases hv with h | h
  · exact hc h
  · have hmem : '.' ∈ p := List.mem_iff_getElem?.2 ⟨_, h⟩
    exact hp _ hmem (Or.inl rfl)

/-- On the graph of a pattern without metacharacters the specification's run
from the single state `j` ends with the accept state active exactly on the
rest of the pattern. -/
theorem plainGraph_run (p : List Char) (hp : ∀ c ∈ p, ¬ isMeta c) :
    ∀ (text : List Char) (j : Nat), j ≤ p.length →
      (p.length ∈ text.foldl (specStep (plainGraph p) p.length) {j} ↔ text = p.drop j) := by
  intro text
  induction text with
  | nil =>
    intro j hjle
    simp only [List.foldl_nil, Set.mem_singleton_iff]
    constructor
    · intro h
      rw [← h, List.drop_length]
    · intro h
      have := List.drop_eq_nil_iff.1 h.symm
      omega
  | cons c text ih =>
    intro j _
    rw [List.foldl_cons]
    by_cases hc : p[j]? = some c
    · have hj : j < p.length := lt_length_of_getElem? hc
      rw [plainGraph_step_hit p j c hc, ih (j + 1) hj, List.drop_eq_getElem_cons hj]
      have hcj : p[j] = c := by
        rw [List.getElem?_eq_getElem hj] at hc
        exact Option.some.inj hc
      rw [hcj]
      simp
    · rw [plainGraph_step_miss p hp j c hc, foldl_specStep_empty]
      simp only [Set.mem_empty_iff_false, false_iff]
      intro h
      by_cases hj : j < p.length
      · rw [List.drop_eq_getElem_cons hj] at h
        have hcj : c = p[j] := (List.cons.inj h).1
        apply hc
        rw [List.getElem?_eq_getElem hj, hcj]
      · rw [List.drop_of_length_le (by omega)] at h
        cases h

/-- The pipeline on a pattern without metacharacters and a NUL-free text
answers whether the text is the pattern. -/
theorem main_plain (p t : List Char) (hp : ∀ c ∈ p, ¬ isMeta c) (ht : NUL ∉ t) :
    main p t = .ok (decide (t = p)) := by
  have hlast : ∀ c ∈ t, ¬ Fires (plainGraph p) c p.length := by
    rintro c hc ⟨v, hv, hvc⟩
    have hv2 : (plainGraph p).values[p.length]? = some NUL := by
      simp [plainGraph]
    rw [hv2] at hv
    cases hv
    rcases hvc with h | h
    · rw [← h] at hc
      exact ht hc
    · revert h
      decide
  obtain ⟨b, hb, hiff⟩ := match_nfa_refines (plainGraph p) p.length t (plainGraph_inRange p)
    rfl hlast
  have hreach0 : epsilonClosure (plainGraph p) 0 = {0} := by
    ext x
    simp only [epsilonClosure, Set.mem_setOf_eq, plainGraph_reach, Set.mem_singleton_iff]
    exact eq_comm
  have hspec : specMatches (plainGraph p) p.length t ↔ t = p := by
    rw [specMatches, specActive, hreach0, plainGraph_run p hp t 0 (Nat.zero_le _), List.drop_zero]
  simp only [main, build_nfa_plain p hp, hb]
  congr 1
  cases b with
  | true => exact (decide_eq_true (hspec.1 (hiff.1 rfl))).symm
  | false =>
    have : ¬ t = p := fun h => by
      have := hiff.2 (hspec.2 h)
      cases this
    exact (decide_eq_false this).symm

/-! ## From the specification's run to the pipeline -/

theorem last_never_fires (g : Graph) (N : Nat) (hv : g.values[N]? = some NUL)
    (t : List Char) (ht : NUL ∉ t) : ∀ c ∈ t, ¬ Fires g c N := by
  rintro c hc ⟨v, hv2, hvc⟩
  rw [hv] at hv2
  cases hv2
  rcases hvc with h | h
  · rw [← h] at hc
    exact ht hc
  · revert h
    decide

/-- When `build_nfa` returns a graph with in-range edges whose last state holds
the terminator, the pipeline returns the verdict of the specification's run. -/
theorem main_refines (p t : List Char) (g : Graph) (N : Nat) (hb : build_nfa p = .ok g)
    (hg : InRange g) (hN : g.size = N + 1) (hv : g.values[N]? = some NUL) (ht : NUL ∉ t) :
    (specMatches g N t → main p t = .ok true) ∧
      (¬ specMatches g N t → main p t = .ok false) := by
  obtain ⟨b, h1, h2⟩ := match_nfa_refines g N t hg hN (last_never_fires g N hv t ht)
  simp only [main, hb, h1]
  cases b with
  | true => exact ⟨fun _ => rfl, fun h => absurd (h2.1 rfl) h⟩
  | false =>
    refine ⟨fun h => ?_, fun _ => rfl⟩
    have := h2.2 h
    cases this

theorem mem_specStep {g : Graph} {N : Nat} {A : Set Nat} {c : Char} {s t : Nat} (hs : s ∈ A)
    (hN : s < N) (hv : g.values[s]? = some c ∨ g.values[s]? = some '.')
    (hr : Reach g (s + 1) t) : t ∈ specStep g N A c :=
  ⟨s, hs, hN, hv, hr⟩

/-- A character that fires no state below `N` empties the active set for the
rest of the run. -/
theorem foldl_specStep_dead (g : Graph) (N : Nat) (c : Char)
    (hdead : ∀ s, s < N → ¬ (g.values[s]? = some c ∨ g.values[s]? = some '.')) :
    ∀ (t : List Char) (A : Set Nat), c ∈ t → t.foldl (specStep g N) A = ∅ := by
  intro t
  induction t with
  | nil => intro _ h; cases h
  | cons d t ih =>
    intro A hc
    rw [List.foldl_cons]
    by_cases hd : c = d
    · subst hd
      have : specStep g N A c = ∅ := by
        ext x
        simp only [specStep, Set.mem_setOf_eq, Set.mem_empty_iff_false, iff_false]
        rintro ⟨s, _, hs, hv, _⟩
        exact hdead s hs hv
      rw [this, foldl_specStep_empty]
    · rcases List.mem_cons.1 hc with h | h
      · exact absurd h hd
      · exact ih _ h

theorem altStarGraph_built :
    build_nfa ['(', 'a', '|', 'b', ')', '*'] = .ok altStarGraph := by decide

theorem altStarGraph_reach :
    Reach altStarGraph 0 1 ∧ Reach altStarGraph 0 3 ∧ Reach altStarGraph 0 6 ∧
      Reach altStarGraph 2 0 ∧ Reach altStarGraph 4 0 := by
  have e01 : Edge altStarGraph 0 1 := by decide
  have e03 : Edge altStarGraph 0 3 := by decide
  have e05 : Edge altStarGraph 0 5 := by decide
  have e56 : Edge altStarGraph 5 6 := by decide
  have e50 : Edge altStarGraph 5 0 := by decide
  have e45 : Edge altStarGraph 4 5 := by decide
  have e24 : Edge altStarGraph 2 4 := by decide
  have r40 : Reach altStarGraph 4 0 := .head e45 (.single e50)
  exact ⟨.single e01, .single e03, .head e05 (.single e56), .head e24 r40, r40⟩

/-- On the graph of `(a|b)*` the states 1, 3 and 6 stay active along every
text over the letters `a` and `b`. -/
theorem altStarGraph_run (t : List Char) (ht : ∀ c ∈ t, c = 'a' ∨ c = 'b') :
    ∀ A : Set Nat, 1 ∈ A → 3 ∈ A → 6 ∈ A →
      6 ∈ t.foldl (specStep altStarGraph 6) A := by
  obtain ⟨r01, r03, r06, r20, r40⟩ := altStarGraph_reach
  induction t with
  | nil => intro A _ _ h6; exact h6
  | cons c t ih =>
    intro A h1 h3 _
    rw [List.foldl_cons]
    have ht2 : ∀ d ∈ t, d = 'a' ∨ d = 'b' := fun d hd => ht d (List.mem_cons_of_mem _ hd)
    rcases ht c (List.mem_cons_self _ _) with rfl | rfl
    · have hv : altStarGraph.values[1]? = some 'a' ∨ altStarGraph.values[1]? = some '.' :=
        Or.inl (by decide)
      exact ih ht2 _ (mem_specStep h1 (by decide) hv (r20.trans r01))
        (mem_specStep h1 (by decide) hv (r20.trans r03))
        (mem_specStep h1 (by decide) hv (r20.trans r06))
    · have hv : altStarGraph.values[3]? = some 'b' ∨ altStarGraph.values[3]? = some '.' :=
        Or.inl (by decide)
      exact ih ht2 _ (mem_specStep h3 (by decide) hv (r40.trans r01))
        (mem_specStep h3 (by decide) hv (r40.trans r03))
        (mem_specStep h3 (by decide) hv (r40.trans r06))

theorem altStarGraph_dead (c : Char) (hc : c ∉ ['(', 'a', '|', 'b', ')', '*']) :
    ∀ s, s < 6 → ¬ (altStarGraph.values[s]? = some c ∨ altStarGraph.values[s]? = some '.') := by
  simp only [List.mem_cons, List.mem_singleton, List.not_mem_nil, or_false, not_or] at hc
  obtain ⟨h1, h2, h3, h4, h5, h6⟩ := hc
  intro s hs
  have hne : ∀ d : Char, c ≠ d → some d ≠ some c := fun d h e => h (Option.some.inj e).symm
  interval_cases s <;> simp only [altStarGraph, List.getElem?_cons_zero,
    List.getElem?_cons_succ, not_or]
  · exact ⟨hne _ h1, by decide⟩
  · exact ⟨hne _ h2, by decide⟩
  · exact ⟨hne _ h3, by decide⟩
  · exact ⟨hne _ h4, by decide⟩
  · exact ⟨hne _ h5, by decide⟩
  · exact ⟨hne _ h6, by decide⟩

/-- A set of states closed under epsilon edges contains everything reachable
from its members. -/
theorem reach_mem_of_closed {g : Graph} {S : Set Nat}
    (hS : ∀ u ∈ S, ∀ v, Edge g u v → v ∈ S) {s t : Nat} (hs : s ∈ S) (h : Reach g s t) :
    t ∈ S := by
  induction h with
  | refl => exact hs
  | tail _ huv ih => exact hS _ ih _ huv

theorem optGraph_built : build_nfa ['a', '?'] = .ok optGraph := by decide

theorem optGraph_reach_1 (t : Nat) (h : Reach optGraph 1 t) : t = 1 ∨ t = 2 := by
  have hS : ∀ u ∈ ({x | x = 1 ∨ x = 2} : Set Nat), ∀ v, Edge optGraph u v →
      v ∈ ({x | x = 1 ∨ x = 2} : Set Nat) := by
    rintro u (rfl | rfl) v ⟨l, hl, hv⟩
    · simp only [optGraph, List.getElem?_cons_succ, List.getElem?_cons_zero,
        Option.some.injEq] at hl
      subst hl
      exact Or.inr (List.mem_singleton.1 hv)
    · simp only [optGraph, List.getElem?_cons_succ, List.getElem?_cons_zero,
        Option.some.injEq] at hl
      subst hl
      cases hv
  exact reach_mem_of_closed hS (Or.inl rfl) h

theorem optGraph_reach_2 (t : Nat) (h : Reach optGraph 2 t) : t = 2 := by
  have hS : ∀ u ∈ ({x | x = 2} : Set Nat), ∀ v, Edge optGraph u v →
      v ∈ ({x | x = 2} : Set Nat) := by
    rintro u rfl v ⟨l, hl, hv⟩
    simp only [optGraph, List.getElem?_cons_succ, List.getElem?_cons_zero,
      Option.some.injEq] at hl
    subst hl
    cases hv
  exact reach_mem_of_closed hS rfl h

/-- One step of the specification's run on the graph of `a?`: only `a` (from
state 0) and `?` (from state 1) lead anywhere. -/
theorem optGraph_step (A : Set Nat) (c : Char) (x : Nat)
    (hx : x ∈ specStep optGraph 2 A c) :
    (c = 'a' ∧ 0 ∈ A ∧ (x = 1 ∨ x = 2)) ∨ (c = '?' ∧ 1 ∈ A ∧ x = 2) := by
  obtain ⟨s, hs, hs2, hv, hr⟩ := hx
  interval_cases s
  · left
    simp only [optGraph, List.getElem?_cons_zero, Option.some.injEq] at hv
    rcases hv with h | h
    · exact ⟨h.symm, hs, optGraph_reach_1 x hr⟩
    · exact absurd h (by decide)
  · right
    simp only [optGraph, List.getElem?_cons_succ, List.getElem?_cons_zero,
      Option.some.injEq] at hv
    rcases hv with h | h
    · exact ⟨h.symm, hs, optGraph_reach_2 x hr⟩
    · exact absurd h (by decide)

/-- The specification's run on the graph of `a?` accepts exactly the four texts
"", "a", "?" and "a?". -/
theorem optGraph_spec (t : List Char) :
    specMatches optGraph 2 t ↔ (t = [] ∨ t = ['a'] ∨ t = ['?'] ∨ t = ['a', '?']) := by
  have e01 : Edge optGraph 0 1 := by decide
  have e12 : Edge optGraph 1 2 := by decide
  have r00 : Reach optGraph 0 0 := .refl
  have r01 : Reach optGraph 0 1 := .single e01
  have r12 : Reach optGraph 1 2 := .single e12
  have va : optGraph.values[0]? = some 'a' ∨ optGraph.values[0]? = some '.' :=
    Or.inl (by decide)
  have vq : optGraph.values[1]? = some '?' ∨ optGraph.values[1]? = some '.' :=
    Or.inl (by decide)
  constructor
  · intro h
    rw [specMatches, specActive] at h
    match t, h with
    | [], _ => exact Or.inl rfl
    | [c], h =>
      rcases optGraph_step _ c 2 h with ⟨rfl, _, _⟩ | ⟨rfl, _, _⟩
      · exact Or.inr (Or.inl rfl)
      · exact Or.inr (Or.inr (Or.inl rfl))
    | [c, d], h =>
      rcases optGraph_step _ d 2 h with ⟨rfl, h0, _⟩ | ⟨rfl, h1, _⟩
      · rcases optGraph_step _ c 0 h0 with ⟨_, _, h | h⟩ | ⟨_, _, h⟩ <;> cases h
      · rcases optGraph_step _ c 1 h1 with ⟨rfl, _, _⟩ | ⟨_, _, h⟩
        · exact Or.inr (Or.inr (Or.inr rfl))
        · cases h
    | c :: d :: e :: t, h =>
      exfalso
      simp only [List.foldl_cons] at h
      have hA3 : specStep optGraph 2
          (specStep optGraph 2 (specStep optGraph 2 (epsilonClosure optGraph 0) c) d) e = ∅ := by
        ext x
        simp only [Set.mem_empty_iff_false, iff_false]
        intro hx
        rcases optGraph_step _ e x hx with ⟨_, h0, _⟩ | ⟨_, h1, _⟩
        · rcases optGraph_step _ d 0 h0 with ⟨_, _, h | h⟩ | ⟨_, _, h⟩ <;> cases h
        · rcases optGraph_step _ d 1 h1 with ⟨_, h0, _⟩ | ⟨_, _, h⟩
          · rcases optGraph_step _ c 0 h0 with ⟨_, _, h | h⟩ | ⟨_, _, h⟩ <;> cases h
          · cases h
      rw [hA3, foldl_specStep_empty] at h
      exact h
  · rintro (rfl | rfl | rfl | rfl)
    · exact r01.trans r12
    · exact mem_specStep r00 (by decide) va r12
    · exact mem_specStep r01 (by decide) vq .refl
    · exact mem_specStep (mem_specStep r00 (by decide) va .refl) (by decide) vq .refl

theorem groupStarGraph_built :
    build_nfa ['(', 'a', 'b', ')', '*'] = .ok groupStarGraph := by decide

/-- On the graph of `(ab)*` the states 1 and 5 are active again after every
further copy of "ab". -/
theorem groupStarGraph_run (n : Nat) :
    ∀ A : Set Nat, 1 ∈ A → 5 ∈ A →
      5 ∈ (repeatText ['a', 'b'] n).foldl (specStep groupStarGraph 5) A := by
  have e34 : Edge groupStarGraph 3 4 := by decide
  have e40 : Edge groupStarGraph 4 0 := by decide
  have e45 : Edge groupStarGraph 4 5 := by decide
  have e01 : Edge groupStarGraph 0 1 := by decide
  have r31 : Reach groupStarGraph 3 1 := .head e34 (.head e40 (.single e01))
  have r35 : Reach groupStarGraph 3 5 := .head e34 (.single e45)
  have va : groupStarGraph.values[1]? = some 'a' ∨ groupStarGraph.values[1]? = some '.' :=
    Or.inl (by decide)
  have vb : groupStarGraph.values[2]? = some 'b' ∨ groupStarGraph.values[2]? = some '.' :=
    Or.inl (by decide)
  induction n with
  | zero => intro A _ h5; exact h5
  | succ n ih =>
    intro A h1 _
    have h2 : 2 ∈ specStep groupStarGraph 5 A 'a' := mem_specStep h1 (by decide) va .refl
    simp only [repeatText, List.cons_append, List.nil_append, List.foldl_cons]
    exact ih _ (mem_specStep h2 (by decide) vb r31) (mem_specStep h2 (by decide) vb r35)

theorem starGraph_built : build_nfa ['a', '*'] = .ok starGraph := by decide

/-- On the graph of `a*` the states 0 and 2 are active again after every
further `a`. -/
theorem starGraph_run (n : Nat) :
    ∀ A : Set Nat, 0 ∈ A → 2 ∈ A →
      2 ∈ (List.replicate n 'a').foldl (specStep starGraph 2) A := by
  have e10 : Edge starGraph 1 0 := by decide
  have e12 : Edge starGraph 1 2 := by decide
  have va : starGraph.values[0]? = some 'a' ∨ starGraph.values[0]? = some '.' :=
    Or.inl (by decide)
  induction n with
  | zero => intro A _ h2; exact h2
  | succ n ih =>
    intro A h0 _
    simp only [List.replicate_succ, List.foldl_cons]
    exact ih _ (mem_specStep h0 (by decide) va (.single e10))
      (mem_specStep h0 (by decide) va (.single e12))

theorem dotGraph_built : build_nfa ['.'] = .ok dotGraph := by decide

theorem dotGraph_reach (s t : Nat) (h : Reach dotGraph s t) : t = s := by
  induction h with
  | refl => rfl
  | tail _ huv _ =>
    obtain ⟨l, hl, hv⟩ := huv
    have hmem : l ∈ dotGraph.adj := List.mem_iff_getElem?.2 ⟨_, hl⟩
    simp only [dotGraph, List.mem_cons, List.mem_singleton, List.not_mem_nil, or_false,
      or_self] at hmem
    subst hmem
    cases hv

/-- The specification's run on the graph of `.` accepts exactly the texts of
one character. -/
theorem dotGraph_spec (t : List Char) : specMatches dotGraph 1 t ↔ t.length = 1 := by
  have vd : dotGraph.values[0]? = some '.' := by decide
  rw [specMatches, specActive]
  match t with
  | [] =>
    simp only [List.foldl_nil, List.length_nil]
    constructor
    · intro h
      have := dotGraph_reach 0 1 h
      omega
    · intro h
      omega
  | [c] =>
    simp only [List.foldl_cons, List.foldl_nil, List.length_singleton, iff_true]
    exact mem_specStep (s := 0) Relation.ReflTransGen.refl (by decide) (Or.inr vd) .refl
  | c :: d :: t =>
    simp only [List.foldl_cons, List.length_cons]
    have hA2 : specStep dotGraph 1 (specStep dotGraph 1 (epsilonClosure dotGraph 0) c) d = ∅ := by
      ext x
      simp only [Set.mem_empty_iff_false, iff_false]
      rintro ⟨s, ⟨s0, _, _, _, hr⟩, hs, _, _⟩
      have := dotGraph_reach _ _ hr
      omega
    rw [hA2, foldl_specStep_empty]
    simp

/-! ## The construction on arbitrary patterns -/

theorem build_step_eq (nfa : Graph) (ops : Stack) (i : Nat) :
    build_step nfa ops i =
      (match rd nfa.values i with
      | .error e => .error e
      | .ok c =>
        match build_group nfa ops i c with
        | .error e => .error e
        | .ok (nfa1, ops1, lp) =>
          match rd nfa.values (i + 1) with
          | .error e => .error e
          | .ok cn =>
            match build_quant nfa1 lp i c cn with
            | .error e => .error e
            | .ok nfa4 => .ok (nfa4, ops1)) := by
  simp only [build_step, bind, Except.bind]
  cases h1 : rd nfa.values i with
  | error e => rfl
  | ok c =>
    simp only []
    have h2 : build_group nfa ops i c = build_group nfa ops i c := rfl
    revert h2
    generalize hr : build_group nfa ops i c = r
    intro _
    simp only [build_group, bind, Except.bind] at hr
    rw [hr]
    cases r with
    | error e => rfl
    | ok r =>
      obtain ⟨nfa1, ops1, lp⟩ := r
      simp only []
      cases h3 : rd nfa.values (i + 1) with
      | error e => rfl
      | ok cn =>
        simp only [build_quant, bind, Except.bind]
        split <;> rename_i h4 <;> split <;> rename_i h5 <;>
          first
            | rfl
            | (split <;> rename_i h6 <;> rw [h6] <;> rfl)
            | simp_all

theorem built_inRange {p : List Char} {g : Graph} (h : Built p g) : InRange g := by
  obtain ⟨h1, h2, h3, h4⟩ := h
  refine ⟨by rw [h3, h1], by rw [h2, h1]; simp, ?_⟩
  rw [h1]
  exact h4

theorem built_plainGraph (p : List Char) : Built p (plainGraph p) := by
  refine ⟨rfl, rfl, by simp [plainGraph], ?_⟩
  intro l hl v hv
  have : l = [] := (List.mem_replicate.1 hl).2
  subst this
  cases hv

theorem built_last {p : List Char} {g : Graph} (h : Built p g) :
    g.values[p.length]? = some NUL := by
  rw [h.2.1]
  simp

theorem built_rd_lt {p : List Char} {g : Graph} (h : Built p g) {j : Nat} {c : Char}
    (hc : p[j]? = some c) : rd g.values j = .ok c := by
  have hj : j < p.length := lt_length_of_getElem? hc
  simp only [rd, h.2.1, List.getElem?_append_left hj, hc]

theorem built_rd_le {p : List Char} {g : Graph} (h : Built p g) {j : Nat}
    (hj : j ≤ p.length) : ∃ c, rd g.values j = .ok c := by
  have hlen : j < (p ++ [NUL]).length := by simp; omega
  refine ⟨(p ++ [NUL])[j], ?_⟩
  simp only [rd, h.2.1, List.getElem?_eq_getElem hlen]

/-- `add_edge` between two states of a graph under construction succeeds and
keeps it one. -/
theorem add_edge_built {p : List Char} {g : Graph} (h : Built p g) {u v : Nat}
    (hu : u ≤ p.length) (hv : v ≤ p.length) :
    ∃ g1, add_edge g u v = .ok g1 ∧ Built p g1 := by
  obtain ⟨h1, h2, h3, h4⟩ := h
  have hul : u < g.adj.length := by omega
  refine ⟨{ g with adj := g.adj.set u (g.adj[u] ++ [v]) }, ?_, h1, h2, ?_, ?_⟩
  · simp only [add_edge, List.getElem?_eq_getElem hul]
  · simp only [List.length_set]
    exact h3
  · intro l hl x hx
    rcases List.mem_or_eq_of_mem_set hl with hm | he
    · exact h4 l hm x hx
    · subst he
      rcases List.mem_append.1 hx with hm | hm
      · exact h4 _ (List.getElem_mem hul) x hm
      · rw [List.mem_singleton] at hm
        omega

/-- The quantifier and pass-through edges of an iteration stay inside the
graph. -/
theorem build_quant_built {p : List Char} {g : Graph} (h : Built p g) {lp i : Nat}
    (hlp : lp ≤ i) (hi : i < p.length) (c cn : Char) :
    ∃ g4, build_quant g lp i c cn = .ok g4 ∧ Built p g4 := by
  have hstar : ∃ g2, (if cn = '*' then
      (add_edge g lp (i + 1)).bind (fun g1 => add_edge g1 (i + 1) lp)
      else pure g : Except Fault Graph) = .ok g2 ∧ Built p g2 := by
    by_cases hc : cn = '*'
    · obtain ⟨g1, e1, b1⟩ := add_edge_built h (u := lp) (v := i + 1) (by omega) (by omega)
      obtain ⟨g2, e2, b2⟩ := add_edge_built b1 (u := i + 1) (v := lp) (by omega) (by omega)
      exact ⟨g2, by simp only [hc, if_true, e1, Except.bind, e2], b2⟩
    · exact ⟨g, by simp only [hc, if_false]; rfl, h⟩
  obtain ⟨g2, e2, b2⟩ := hstar
  have hopt : ∃ g3, (if cn = '?' then add_edge g2 lp (i + 1) else pure g2 :
      Except Fault Graph) = .ok g3 ∧ Built p g3 := by
    by_cases hc : cn = '?'
    · obtain ⟨g3, e3, b3⟩ := add_edge_built b2 (u := lp) (v := i + 1) (by omega) (by omega)
      exact ⟨g3, by simp only [hc, if_true, e3], b3⟩
    · exact ⟨g2, by simp only [hc, if_false]; rfl, b2⟩
  obtain ⟨g3, e3, b3⟩ := hopt
  have hself : ∃ g4, (if c = '(' ∨ c = '*' ∨ c = ')' ∨ c = '?' then add_edge g3 i (i + 1)
      else pure g3 : Except Fault Graph) = .ok g4 ∧ Built p g4 := by
    by_cases hc : c = '(' ∨ c = '*' ∨ c = ')' ∨ c = '?'
    · obtain ⟨g4, e4, b4⟩ := add_edge_built b3 (u := i) (v := i + 1) (by omega) (by omega)
      exact ⟨g4, by simp only [hc, if_true, e4], b4⟩
    · exact ⟨g3, by simp only [hc, if_false]; rfl, b3⟩
  obtain ⟨g4, e4, b4⟩ := hself
  refine ⟨g4, ?_, b4⟩
  simp only [build_quant, bind]
  rw [e2]
  simp only [Except.bind]
  rw [e3]
  simp only []
  exact e4

/-- The first part of an iteration: it fails only by popping the empty stack,
and otherwise leaves the stack `opsStep` computes, a graph under construction
and an `lp` that is at most `i`. -/
theorem build_group_spec {p : List Char} {g : Graph} (h : Built p g) {ops : Stack} {i : Nat}
    {c : Char} (hc : p[i]? = some c) (hops : ∀ j ∈ ops, j < i) :
    (opsStep p i ops = none ∧ build_group g ops i c = .error .emptyStack) ∨
      (∃ g1 ops1 lp, opsStep p i ops = some ops1 ∧ build_group g ops i c = .ok (g1, ops1, lp) ∧
        Built p g1 ∧ lp ≤ i ∧ ∀ j ∈ ops1, j < i + 1) := by
  have hi : i < p.length := lt_length_of_getElem? hc
  have hmono : ∀ j ∈ ops, j < i + 1 := fun j hj => Nat.lt_succ_of_lt (hops j hj)
  by_cases h1 : c = '(' ∨ c = '|'
  · right
    refine ⟨g, i :: ops, i, ?_, ?_, h, le_refl _, ?_⟩
    · simp only [opsStep, hc, h1, if_true]
    · simp only [build_group, h1, if_true, push]; rfl
    · intro j hj
      rcases List.mem_cons.1 hj with rfl | hj
      · omega
      · exact hmono j hj
  · by_cases h2 : c = ')'
    · subst h2
      have h2 : ')' = ')' := rfl
      cases ops with
      | nil =>
        left
        refine ⟨?_, ?_⟩
        · simp only [opsStep, hc, h1, if_false, h2, if_true]
        · simp only [build_group, h1, if_false, h2, if_true, pop, bind, Except.bind]
      | cons m rest =>
        have hm : m < i := hops m (List.mem_cons_self _ _)
        have hrest : ∀ j ∈ rest, j < i := fun j hj => hops j (List.mem_cons_of_mem _ hj)
        have hml : m < p.length := by omega
        have hrd : rd g.values m = .ok p[m] := built_rd_lt h (List.getElem?_eq_getElem hml)
        by_cases h3 : p[m] = '|'
        · have h3o : p[m]? = some '|' := by rw [List.getElem?_eq_getElem hml, h3]
          cases rest with
          | nil =>
            left
            refine ⟨?_, ?_⟩
            · simp only [opsStep, hc, h1, if_false, h2, if_true, h3o]
            · simp only [build_group, h1, if_false, h2, if_true, pop, bind, Except.bind, hrd,
                h3]
          | cons o rest1 =>
            have ho : o < i := hrest o (List.mem_cons_self _ _)
            obtain ⟨g1, e1, b1⟩ := add_edge_built h (u := o) (v := m + 1) (by omega) (by omega)
            obtain ⟨g2, e2, b2⟩ := add_edge_built b1 (u := m) (v := i) (by omega) (by omega)
            right
            refine ⟨g2, rest1, o, ?_, ?_, b2, by omega, ?_⟩
            · simp only [opsStep, hc, h1, if_false, h2, if_true, h3o]
            · simp only [build_group, h1, if_false, h2, if_true, pop, bind, Except.bind, hrd,
                h3, e1, e2]
              rfl
            · intro j hj
              exact Nat.lt_succ_of_lt (hrest j (List.mem_cons_of_mem _ hj))
        · have h3o : ¬ p[m]? = some '|' := by
            rw [List.getElem?_eq_getElem hml]
            exact fun hh => h3 (Option.some.inj hh)
          right
          refine ⟨g, rest, m, ?_, ?_, h, by omega, ?_⟩
          · simp only [opsStep, hc, h1, if_false, h2, if_true, h3o]
          · simp only [build_group, h1, if_false, h2, if_true, pop, bind, Except.bind, hrd,
              h3]
            rfl
          · intro j hj
            exact Nat.lt_succ_of_lt (hrest j hj)
    · right
      refine ⟨g, ops, i, ?_, ?_, h, le_refl _, hmono⟩
      · simp only [opsStep, hc, h1, if_false, h2]
      · simp only [build_group, h1, if_false, h2]; rfl

/-- One iteration of `build_transitions` inside the pattern: it fails only by
popping the empty stack, and otherwise leaves the stack `opsStep` computes and
a graph under construction. -/
theorem build_step_spec {p : List Char} {g : Graph} (h : Built p g) {ops : Stack} {i : Nat}
    (hi : i < p.length) (hops : ∀ j ∈ ops, j < i) :
    (opsStep p i ops = none ∧ build_step g ops i = .error .emptyStack) ∨
      (∃ g1 ops1, opsStep p i ops = some ops1 ∧ build_step g ops i = .ok (g1, ops1) ∧
        Built p g1 ∧ ∀ j ∈ ops1, j < i + 1) := by
  have hc : p[i]? = some p[i] := List.getElem?_eq_getElem hi
  have hrd : rd g.values i = .ok p[i] := built_rd_lt h hc
  obtain ⟨cn, hcn⟩ := built_rd_le h (j := i + 1) (by omega)
  rcases build_group_spec h hc hops with ⟨e1, e2⟩ | ⟨g1, ops1, lp, e1, e2, b1, hlp, hops1⟩
  · left
    refine ⟨e1, ?_⟩
    rw [build_step_eq]
    simp only [hrd, e2]
  · right
    obtain ⟨g4, e4, b4⟩ := build_quant_built b1 hlp hi p[i] cn
    refine ⟨g4, ops1, e1, ?_, b4, hops1⟩
    rw [build_step_eq]
    simp only [hrd, e2, hcn, e4]

theorem build_loop_succ (k : Nat) :
    ∀ (i : Nat) (g : Graph) (ops : Stack),
      build_loop (k + 1) i g ops =
        match build_loop k i g ops with
        | .error e => .error e
        | .ok (g1, ops1) => build_step g1 ops1 (i + k) := by
  induction k with
  | zero =>
    intro i g ops
    simp only [build_loop, Nat.add_zero]
    cases build_step g ops i with
    | error e => rfl
    | ok r => rfl
  | succ k ih =>
    intro i g ops
    rw [build_loop]
    cases hs : build_step g ops i with
    | error e => simp only [build_loop, hs]
    | ok r =>
      obtain ⟨g1, ops1⟩ := r
      simp only []
      rw [ih (i + 1) g1 ops1]
      conv_rhs => rw [build_loop]
      simp only [hs]
      have : i + 1 + k = i + (k + 1) := by omega
      rw [this]

/-- The first `k` iterations of `build_transitions` from the edgeless graph of
the pattern: they fail only by popping the empty stack, and otherwise leave the
stack `opsRun` computes and a graph under construction. -/
theorem build_loop_spec (p : List Char) :
    ∀ k, k ≤ p.length →
      (opsRun p k = none ∧ build_loop k 0 (plainGraph p) [] = .error .emptyStack) ∨
        (∃ g ops, opsRun p k = some ops ∧ build_loop k 0 (plainGraph p) [] = .ok (g, ops) ∧
          Built p g ∧ ∀ j ∈ ops, j < k) := by
  intro k
  induction k with
  | zero =>
    intro _
    exact Or.inr ⟨plainGraph p, [], rfl, rfl, built_plainGraph p, fun j hj => nomatch hj⟩
  | succ k ih =>
    intro hk
    rw [build_loop_succ]
    rcases ih (by omega) with ⟨e1, e2⟩ | ⟨g, ops, e1, e2, b, hops⟩
    · left
      exact ⟨by simp only [opsRun, e1], by simp only [e2]⟩
    · simp only [opsRun, e1, e2, Nat.zero_add]
      exact build_step_spec b (by omega) hops

theorem build_nfa_eq (p : List Char) :
    build_nfa p =
      match build_loop p.length 0 (plainGraph p) [] with
      | .error e => .error e
      | .ok (g, _) => .ok g := by
  have htake : List.take (p.length + 1) (p ++ [NUL]) = p ++ [NUL] :=
    List.take_of_length_le (by simp)
  simp only [build_nfa, set_graph_vals_from_string, init_graph, build_transitions, bind,
    Except.bind, pure, Except.pure, le_refl, if_true, htake, Nat.add_one_ne_zero, if_false,
    Nat.add_sub_cancel]
  have hg : Graph.mk (p.length + 1) (p ++ [NUL]) (List.replicate (p.length + 1) []) =
      plainGraph p := rfl
  rw [hg]
  cases build_loop p.length 0 (plainGraph p) [] with
  | error e => rfl
  | ok r => rfl

theorem count_take_succ (p : List Char) (k : Nat) (hk : k < p.length) (x : Char) :
    (p.take (k + 1)).count x = (p.take k).count x + (if p[k] = x then 1 else 0) := by
  rw [List.take_succ, List.count_append, List.getElem?_eq_getElem hk]
  simp only [Option.toList, List.count_singleton, beq_iff_eq]

theorem openEntries_cons (p : List Char) (j : Nat) (ops : Stack) :
    openEntries p (j :: ops) = openEntries p ops + (if p[j]? = some '(' then 1 else 0) := by
  simp only [openEntries, List.countP_cons, decide_eq_true_eq]

/-- While every prefix has at least as many `(` as `)`, the operator stack holds
at least as many indices of `(` as there are parentheses still open, so that no
iteration pops the empty stack. -/
theorem opsRun_balanced (p : List Char)
    (hpre : ∀ k, k ≤ p.length → (p.take k).count ')' ≤ (p.take k).count '(') :
    ∀ k, k ≤ p.length → ∃ ops, opsRun p k = some ops ∧
      (p.take k).count '(' ≤ (p.take k).count ')' + openEntries p ops := by
  intro k
  induction k with
  | zero =>
    intro _
    exact ⟨[], rfl, by simp⟩
  | succ k ih =>
    intro hk
    have hkl : k < p.length := by omega
    obtain ⟨ops, e1, inv⟩ := ih (by omega)
    have hc : p[k]? = some p[k] := List.getElem?_eq_getElem hkl
    have hopen := count_take_succ p k hkl '('
    have hclose := count_take_succ p k hkl ')'
    have hbal := hpre (k + 1) hk
    simp only [opsRun, e1]
    by_cases h1 : p[k] = '(' ∨ p[k] = '|'
    · refine ⟨k :: ops, by simp only [opsStep, hc, h1, if_true], ?_⟩
      rw [openEntries_cons, hc]
      rcases h1 with h | h
      · rw [h] at hopen hclose ⊢
        simp only [if_true] at hopen ⊢
        rw [if_neg (by decide)] at hclose
        omega
      · rw [h] at hopen hclose ⊢
        rw [if_neg (by decide)] at hopen hclose
        rw [if_neg (by decide)]
        omega
    · by_cases h2 : p[k] = ')'
      · have h1c : ¬ (')' = '(' ∨ ')' = '|') := by decide
        rw [h2] at hopen hclose
        rw [if_neg (by decide)] at hopen
        simp only [if_true] at hclose
        cases ops with
        | nil =>
          simp only [openEntries, List.countP_nil] at inv
          omega
        | cons m rest =>
          rw [openEntries_cons] at inv
          by_cases h3 : p[m]? = some '|'
          · have h3n : ¬ p[m]? = some '(' := by rw [h3]; decide
            rw [if_neg h3n] at inv
            cases rest with
            | nil =>
              simp only [openEntries, List.countP_nil] at inv
              omega
            | cons o rest1 =>
              rw [openEntries_cons] at inv
              refine ⟨rest1, by simp only [opsStep, hc, h2, h1c, if_false, if_true, h3], ?_⟩
              split at inv <;> omega
          · refine ⟨rest, by simp only [opsStep, hc, h2, h1c, if_false, if_true, h3], ?_⟩
            split at inv <;> omega
      · refine ⟨ops, by simp only [opsStep, hc, h1, h2, if_false], ?_⟩
        have hne : p[k] ≠ '(' := fun h => h1 (Or.inl h)
        rw [if_neg hne] at hopen
        rw [if_neg h2] at hclose
        omega

/-- Whatever `build_nfa` returns is a graph under construction for the pattern. -/
theorem build_nfa_built (p : List Char) (g : Graph) (h : build_nfa p = .ok g) :
    Built p g := by
  rw [build_nfa_eq] at h
  rcases build_loop_spec p p.length (le_refl _) with ⟨_, e2⟩ | ⟨g1, ops, _, e2, b, _⟩
  · rw [e2] at h
    cases h
  · rw [e2] at h
    cases h
    exact b

/-- On a pattern whose every prefix has at least as many `(` as `)`,
`build_transitions` and `build_nfa` run without a fault. -/
theorem build_nfa_balanced (p : List Char)
    (hpre : ∀ k, k ≤ p.length → (p.take k).count ')' ≤ (p.take k).count '(') :
    ∃ g ops, opsRun p p.length = some ops ∧
      build_transitions (plainGraph p) [] = .ok (g, ops) ∧ build_nfa p = .ok g ∧ Built p g := by
  obtain ⟨ops, e1, _⟩ := opsRun_balanced p hpre p.length (le_refl _)
  rcases build_loop_spec p p.length (le_refl _) with ⟨e3, _⟩ | ⟨g1, ops1, e3, e4, b, _⟩
  · rw [e1] at e3
    cases e3
  · rw [e1] at e3
    cases e3
    refine ⟨g1, ops, e1, ?_, ?_, b⟩
    · simp only [build_transitions, plainGraph, Nat.add_one_ne_zero, if_false,
        Nat.add_sub_cancel]
      exact e4
    · rw [build_nfa_eq, e4]

/-- On a graph under construction for `p`, the specification's run over the
rest of the pattern from an active state `j` ends with the accept state
active: state `j` fires on the character `p[j]`, whatever it is. -/
theorem built_self_run {p : List Char} {g : Graph} (h : Built p g) :
    ∀ (t : List Char) (j : Nat) (A : Set Nat), j ≤ p.length → j ∈ A → t = p.drop j →
      p.length ∈ t.foldl (specStep g p.length) A := by
  intro t
  induction t with
  | nil =>
    intro j A hj hA ht
    have := List.drop_eq_nil_iff.1 ht.symm
    have hjn : j = p.length := by omega
    rw [← hjn]
    exact hA
  | cons c t ih =>
    intro j A _ hA ht
    have hjl : j < p.length := by
      by_contra hn
      rw [List.drop_of_length_le (by omega)] at ht
      cases ht
    rw [List.drop_eq_getElem_cons hjl] at ht
    obtain ⟨hc, ht2⟩ := List.cons.inj ht
    have hv : g.values[j]? = some c := by
      rw [h.2.1, List.getElem?_append_left hjl, List.getElem?_eq_getElem hjl, hc]
    rw [List.foldl_cons]
    exact ih (j + 1) _ hjl (mem_specStep hA hjl (Or.inl hv) Relation.ReflTransGen.refl) ht2

theorem match_final_eq_decide (N : Nat) (old : Stack) :
    match_final (((N + 1 : Nat) : Int) - 1) old = decide (N ∈ old) := by
  rw [Bool.eq_iff_iff, match_final_iff, decide_eq_true_iff]
  constructor
  · rintro ⟨s, hs, hse⟩
    have : s = N := by push_cast at hse; omega
    rw [← this]; exact hs
  · intro h
    exact ⟨N, h, by push_cast; omega⟩

/-- As long as no `)` lacks its `(` and no closed group had two top-level `|`,
the operator stack of `build_transitions` is laid out along the group
structure: the entries of the open groups, then the `|` outside all groups. -/
theorem opsRun_groups (p : List Char) :
    ∀ (k : Nat) (fs : List Frame) (bars : List Nat), groupsAt p k = some (fs, bars) →
      opsRun p k = some (frameEntries fs ++ bars) ∧
        (∀ f ∈ fs, p[f.1]? = some '(' ∧ ∀ m ∈ f.2, p[m]? = some '|') ∧
        (∀ m ∈ bars, p[m]? = some '|') := by
  intro k
  induction k with
  | zero =>
    intro fs bars h
    simp only [groupsAt, Option.some.injEq, Prod.mk.injEq] at h
    obtain ⟨rfl, rfl⟩ := h
    exact ⟨rfl, by simp, by simp⟩
  | succ k ih =>
    intro fs bars h
    rw [groupsAt] at h
    cases hst : groupsAt p k with
    | none => rw [hst] at h; cases h
    | some st =>
      obtain ⟨fs0, bars0⟩ := st
      cases hc : p[k]? with
      | none => rw [hst, hc] at h; cases h
      | some c =>
        rw [hst, hc] at h
        simp only [] at h
        obtain ⟨e0, hfs0, hbars0⟩ := ih fs0 bars0 hst
        simp only [opsRun, e0]
        by_cases h1 : c = '('
        · subst h1
          simp only [groupStep, if_true, Option.some.injEq, Prod.mk.injEq] at h
          obtain ⟨rfl, rfl⟩ := h
          refine ⟨by simp [opsStep, hc, frameEntries], ?_, hbars0⟩
          intro f hf
          rcases List.mem_cons.1 hf with rfl | hf
          · exact ⟨hc, by simp⟩
          · exact hfs0 f hf
        · by_cases h2 : c = '|'
          · subst h2
            have hn : ¬ ('|' = '(') := by decide
            simp only [groupStep, hn, if_false, if_true] at h
            cases fs0 with
            | nil =>
              simp only [Option.some.injEq, Prod.mk.injEq] at h
              obtain ⟨rfl, rfl⟩ := h
              refine ⟨by simp [opsStep, hc, frameEntries], hfs0, ?_⟩
              intro m hm
              rcases List.mem_cons.1 hm with rfl | hm
              · exact hc
              · exact hbars0 m hm
            | cons f fs1 =>
              obtain ⟨o, bs⟩ := f
              simp only [Option.some.injEq, Prod.mk.injEq] at h
              obtain ⟨rfl, rfl⟩ := h
              refine ⟨by simp [opsStep, hc, frameEntries], ?_, hbars0⟩
              intro f hf
              rcases List.mem_cons.1 hf with rfl | hf
              · have h0 := hfs0 (o, bs) (List.mem_cons_self _ _)
                refine ⟨h0.1, ?_⟩
                intro m hm
                rcases List.mem_cons.1 hm with rfl | hm
                · exact hc
                · exact h0.2 m hm
              · exact hfs0 f (List.mem_cons_of_mem _ hf)
          · by_cases h3 : c = ')'
            · subst h3
              have hn1 : ¬ (')' = '(') := by decide
              have hn2 : ¬ (')' = '|') := by decide
              have hn3 : ¬ (')' = '(' ∨ ')' = '|') := by decide
              simp only [groupStep, hn1, hn2, if_false, if_true] at h
              match fs0, h, hfs0, e0 with
              | (o, []) :: fs1, h, hfs0, _ =>
                simp only [Option.some.injEq, Prod.mk.injEq] at h
                obtain ⟨rfl, rfl⟩ := h
                have h0 := hfs0 (o, []) (List.mem_cons_self _ _)
                have hno : ¬ p[o]? = some '|' := by rw [h0.1]; decide
                refine ⟨?_, fun f hf => hfs0 f (List.mem_cons_of_mem _ hf), hbars0⟩
                simp only [opsStep, hc, hn3, if_false, if_true, frameEntries, List.nil_append,
                  List.cons_append, hno]
              | (o, [m]) :: fs1, h, hfs0, _ =>
                simp only [Option.some.injEq, Prod.mk.injEq] at h
                obtain ⟨rfl, rfl⟩ := h
                have h0 := hfs0 (o, [m]) (List.mem_cons_self _ _)
                have hm : p[m]? = some '|' := h0.2 m (List.mem_singleton_self _)
                refine ⟨?_, fun f hf => hfs0 f (List.mem_cons_of_mem _ hf), hbars0⟩
                simp only [opsStep, hc, hn3, if_false, if_true, frameEntries, List.nil_append,
                  List.cons_append, hm]
            · simp only [groupStep, h1, h2, h3, if_false, Option.some.injEq,
                Prod.mk.injEq] at h
              obtain ⟨rfl, rfl⟩ := h
              have hn : ¬ (c = '(' ∨ c = '|') := fun hh => hh.elim h1 h2
              exact ⟨by simp only [opsStep, hc, hn, h3, if_false], hfs0, hbars0⟩

/-- The state of `build_transitions` before iteration `k`, under the same
condition: the run has not failed, and its stack is laid out along the group
structure. -/
theorem build_loop_groups (p : List Char) (k : Nat) (hk : k ≤ p.length) (fs : List Frame)
    (bars : List Nat) (h : groupsAt p k = some (fs, bars)) :
    ∃ g, build_loop k 0 (plainGraph p) [] = .ok (g, frameEntries fs ++ bars) ∧ Built p g ∧
      (∀ j ∈ frameEntries fs ++ bars, j < k) := by
  obtain ⟨e0, _, _⟩ := opsRun_groups p k fs bars h
  rcases build_loop_spec p k hk with ⟨e1, _⟩ | ⟨g, ops, e1, e2, b, hops⟩
  · rw [e0] at e1
    cases e1
  · rw [e0] at e1
    cases e1
    exact ⟨g, e2, b, hops⟩

/-! ## Termination and marks of `add_state` on arbitrary arguments -/

/-- A call of `add_state` on a state of the graph, whatever is marked already,
returns when its recursion bound exceeds the number of unmarked cells. -/
theorem add_state_returns (g : Graph) (hg : InRange g) (fuel s : Nat) (stack : Stack)
    (buf : List Bool) (hlen : buf.length = g.size) (hs : s < g.size)
    (hfuel : buf.count false < fuel) :
    ∃ r, add_state g fuel s stack buf = .ok r ∧ r.2.length = g.size := by
  obtain ⟨hadj, _, hedges⟩ := hg
  have hr : ∀ l ∈ g.adj, ∀ v ∈ l, v < g.adj.length := by rw [hadj]; exact hedges
  cases fuel with
  | zero => omega
  | succ fuel =>
    have hsl : s < buf.length := by rw [hlen]; exact hs
    have hsa : s < g.adj.length := by rw [hadj]; exact hs
    have hadjs : g.adj[s]? = some g.adj[s] := List.getElem?_eq_getElem hsa
    have hcnt : (buf.set s true).count false ≤ buf.count false := by
      have h0 := List.count_set true false buf s hsl
      simp only [Bool.true_eq_false, if_false, beq_iff_eq, Nat.add_zero] at h0
      omega
    obtain ⟨r, hrr, _, _, a2, _⟩ :=
      add_state_loop_pushed g fuel (add_state_pushed g hr fuel) g.adj[s] (push stack s)
        (buf.set s true) (by rw [List.length_set, hadj, hlen])
        (by
          intro t ht
          rw [List.length_set, hlen, ← hadj]
          exact hr _ (List.getElem_mem _) t ht)
        (by omega)
    refine ⟨r, ?_, by rw [a2, List.length_set, hlen]⟩
    simp only [add_state, hsl, if_true, hadjs]
    exact hrr

theorem add_state_loop_fuel_mono
    (call1 call2 : Nat → Stack → List Bool → Except Fault (Stack × List Bool))
    (h : ∀ t st buf r, call1 t st buf = .ok r → call2 t st buf = .ok r) :
    ∀ (ts : List Nat) (st : Stack) (buf : List Bool) (r : Stack × List Bool),
      add_state_loop call1 ts st buf = .ok r → add_state_loop call2 ts st buf = .ok r := by
  intro ts
  induction ts with
  | nil => intro st buf r hr; exact hr
  | cons t ts ih =>
    intro st buf r hr
    cases hb : buf[t]? with
    | none => simp only [add_state_loop, hb] at hr; cases hr
    | some b =>
      cases b with
      | true =>
        simp only [add_state_loop, hb] at hr ⊢
        exact ih _ _ _ hr
      | false =>
        simp only [add_state_loop, hb] at hr ⊢
        cases hc : call1 t st buf with
        | error e => rw [hc] at hr; cases hr
        | ok r1 =>
          rw [hc] at hr
          rw [h _ _ _ _ hc]
          exact ih _ _ _ hr

/-- A result of `add_state` does not depend on the recursion bound: a larger
bound gives the same result. -/
theorem add_state_fuel_mono (g : Graph) :
    ∀ (fuel : Nat) (s : Nat) (st : Stack) (buf : List Bool) (r : Stack × List Bool),
      add_state g fuel s st buf = .ok r → add_state g (fuel + 1) s st buf = .ok r := by
  intro fuel
  induction fuel with
  | zero => intro s st buf r h; cases h
  | succ fuel ih =>
    intro s st buf r h
    rw [add_state] at h ⊢
    split at h
    · rename_i hs
      simp only [hs, if_true]
      split at h
      · cases h
      · exact add_state_loop_fuel_mono _ _ (ih) _ _ _ _ h
    · cases h

theorem add_state_fuel_le (g : Graph) (fuel1 fuel2 : Nat) (hle : fuel1 ≤ fuel2) (s : Nat)
    (st : Stack) (buf : List Bool) (r : Stack × List Bool)
    (h : add_state g fuel1 s st buf = .ok r) : add_state g fuel2 s st buf = .ok r := by
  induction hle with
  | refl => exact h
  | step _ ih => exact add_state_fuel_mono g _ s st buf r ih

theorem add_state_loop_marks
    (call : Nat → Stack → List Bool → Except Fault (Stack × List Bool))
    (hcall : ∀ t st buf r, call t st buf = .ok r →
      r.2.length = buf.length ∧ r.2[t]? = some true ∧
        ∀ x : Nat, buf[x]? = some true → r.2[x]? = some true) :
    ∀ (ts : List Nat) (st : Stack) (buf : List Bool) (r : Stack × List Bool),
      add_state_loop call ts st buf = .ok r →
      r.2.length = buf.length ∧ (∀ t ∈ ts, r.2[t]? = some true) ∧
        ∀ x : Nat, buf[x]? = some true → r.2[x]? = some true := by
  intro ts
  induction ts with
  | nil =>
    intro st buf r hr
    simp only [add_state_loop, Except.ok.injEq] at hr
    subst hr
    exact ⟨rfl, by simp, fun x hx => hx⟩
  | cons t ts ih =>
    intro st buf r hr
    simp only [add_state_loop] at hr
    split at hr
    · cases hr
    · rename_i hb
      obtain ⟨h1, h2, h3⟩ := ih _ _ _ hr
      refine ⟨h1, ?_, h3⟩
      intro x hx
      rcases List.mem_cons.1 hx with rfl | hx
      · exact h3 x hb
      · exact h2 x hx
    · split at hr
      · cases hr
      · rename_i st1 buf1 hc
        obtain ⟨c1, c2, c3⟩ := hcall _ _ _ _ hc
        obtain ⟨h1, h2, h3⟩ := ih _ _ _ hr
        refine ⟨by rw [h1, c1], ?_, fun x hx => h3 x (c3 x hx)⟩
        intro x hx
        rcases List.mem_cons.1 hx with rfl | hx
        · exact h3 x c2
        · exact h2 x hx

/-- Whatever the graph, a call of `add_state` that returns has marked its state
and has unmarked nothing. -/
theorem add_state_marks (g : Graph) :
    ∀ (fuel s : Nat) (st : Stack) (buf : List Bool) (r : Stack × List Bool),
      add_state g fuel s st buf = .ok r →
      r.2.length = buf.length ∧ r.2[s]? = some true ∧
        ∀ x : Nat, buf[x]? = some true → r.2[x]? = some true := by
  intro fuel
  induction fuel with
  | zero => intro s st buf r h; cases h
  | succ fuel ih =>
    intro s st buf r h
    rw [add_state] at h
    split at h
    · rename_i hs
      split at h
      · cases h
      · obtain ⟨h1, _, h3⟩ := add_state_loop_marks _ ih _ _ _ _ h
        have hset : ∀ x : Nat, buf[x]? = some true → (buf.set s true)[x]? = some true := by
          intro x hx
          rw [List.getElem?_set]
          by_cases hsx : s = x
          · simp [hsx, lt_length_of_getElem? hx]
          · simp [hsx, hx]
        refine ⟨by rw [h1, List.length_set], h3 s (List.getElem?_set_self hs),
          fun x hx => h3 x (hset x hx)⟩
    · cases h

theorem add_state_bounded (g : Graph) (hg : InRange g) (s : Nat) (st : Stack)
    (buf : List Bool) (hlen : buf.length = g.size) :
    Bounded g.size (add_state g (g.size + 1) s st buf) := by
  by_cases hs : s < g.size
  · obtain ⟨r, h1, h2⟩ := add_state_returns g hg (g.size + 1) s st buf hlen hs
      (by have := List.count_le_length false buf; omega)
    rw [h1]
    exact h2
  · have : ¬ s < buf.length := by rw [hlen]; exact hs
    simp only [add_state, this, if_false, Bounded]
    decide

theorem make_next_moves_scan_bounded (g : Graph) (hg : InRange g) (c : Char) :
    ∀ (old new : Stack) (buf : List Bool), buf.length = g.size →
      Bounded g.size (make_next_moves_scan g c old new buf) := by
  intro old
  induction old with
  | nil => intro new buf hlen; exact hlen
  | cons s old ih =>
    intro new buf hlen
    simp only [make_next_moves_scan]
    cases g.values[s]? with
    | none => simp only [Bounded]; decide
    | some v =>
      simp only []
      split
      · cases buf[s + 1]? with
        | none => simp only [Bounded]; decide
        | some b =>
          cases b with
          | true => exact ih new buf hlen
          | false =>
            simp only []
            have hb := add_state_bounded g hg (s + 1) new buf hlen
            cases hr : add_state g (g.size + 1) (s + 1) new buf with
            | error e => rw [hr] at hb; exact hb
            | ok r => rw [hr] at hb; exact ih r.1 r.2 hb
      · exact ih new buf hlen

theorem make_next_moves_flush_bounded :
    ∀ (new old : Stack) (buf : List Bool),
      Bounded buf.length (make_next_moves_flush new old buf) := by
  intro new
  induction new with
  | nil => intro old buf; rfl
  | cons s new ih =>
    intro old buf
    simp only [make_next_moves_flush]
    split
    · have := ih (push old s) (buf.set s false)
      rwa [List.length_set] at this
    · simp only [Bounded]; decide

/-- On a graph with in-range edges no call of `make_next_moves` exhausts the
recursion bound of `add_state`. -/
theorem make_next_moves_bounded (g : Graph) (hg : InRange g) (c : Char) (old : Stack)
    (buf : List Bool) (hlen : buf.length = g.size) :
    match make_next_moves g c old [] buf with
    | .error e => e ≠ .outOfFuel
    | .ok r => r.2.2.length = g.size := by
  have h1 := make_next_moves_scan_bounded g hg c old [] buf hlen
  simp only [make_next_moves]
  cases hs : make_next_moves_scan g c old [] buf with
  | error e => rw [hs] at h1; exact h1
  | ok r =>
    rw [hs] at h1
    have h2 := make_next_moves_flush_bounded r.1 [] r.2
    simp only []
    cases hf : make_next_moves_flush r.1 [] r.2 with
    | error e => rw [hf] at h2; exact h2
    | ok r2 => rw [hf] at h2; simp only [Bounded] at h1 h2 ⊢; rw [h2, h1]

theorem match_loop_bounded (g : Graph) (hg : InRange g) :
    ∀ (text : List Char) (old new : Stack) (buf : List Bool), new = [] →
      buf.length = g.size → match_loop g text old new buf ≠ .error .outOfFuel := by
  intro text
  induction text with
  | nil => intro old new buf _ _ h; cases h
  | cons c text ih =>
    intro old new buf hnew hlen
    subst hnew
    have h1 := make_next_moves_bounded g hg c old buf hlen
    simp only [match_loop]
    cases hm : make_next_moves g c old [] buf with
    | error e =>
      rw [hm] at h1
      intro h
      cases h
      exact h1 rfl
    | ok r =>
      rw [hm] at h1
      obtain ⟨old1, new1, buf1⟩ := r
      have hnew1 : new1 = [] := by
        simp only [make_next_moves] at hm
        split at hm
        · cases hm
        · split at hm
          · cases hm
          · cases hm; rfl
      exact ih old1 new1 buf1 hnew1 h1

/-- On a graph with in-range edges `match` never exhausts the recursion bound of
`add_state`, whatever the text. -/
theorem match_nfa_bounded (g : Graph) (hg : InRange g) (text : List Char) :
    match_nfa g text ≠ .error .outOfFuel := by
  have h0 := add_state_bounded g hg 0 [] (init_bool_buffer g.size false)
    (by simp [init_bool_buffer])
  simp only [match_nfa, epsilon_closure]
  cases ha : add_state g (g.size + 1) 0 [] (init_bool_buffer g.size false) with
  | error e =>
    rw [ha] at h0
    intro h
    cases h
    exact h0 rfl
  | ok r =>
    simp only []
    have h2 := match_loop_bounded g hg text r.1 [] (init_bool_buffer g.size false) rfl
      (by simp [init_bool_buffer])
    cases hm : match_loop g text r.1 [] (init_bool_buffer g.size false) with
    | error e =>
      rw [hm] at h2
      intro h
      cases h
      exact h2 rfl
    | ok r2 => intro h; cases h

/-- The text loop of `match` keeps the old states distinct, `new_states` empty
and the buffer cleared, on a graph whose state `N` does not fire on the text. -/
theorem match_loop_distinct (g : Graph) (N : Nat) (hg : InRange g) (hN : g.size = N + 1) :
    ∀ (text : List Char), (∀ c ∈ text, ¬ Fires g c N) →
      ∀ old : Stack, old.Nodup → (∀ s ∈ old, s < g.size) →
      ∃ old1, match_loop g text old [] (init_bool_buffer g.size false) =
          .ok (old1, [], init_bool_buffer g.size false) ∧
        old1.Nodup ∧ (∀ t ∈ old1, t < g.size) := by
  intro text
  induction text with
  | nil =>
    intro _ old hnd hold
    exact ⟨old, rfl, hnd, hold⟩
  | cons c text ih =>
    intro htext old _ hold
    have hc : ¬ Fires g c N := htext c (List.mem_cons_self _ _)
    have hlast : ∀ s, Fires g c s → s + 1 < g.size := by
      intro s hs
      have := fires_lt g N hg hN c hc s hs
      omega
    obtain ⟨old1, h1, h2, h3, _⟩ := make_next_moves_spec g c hg hlast old hold
    obtain ⟨old2, k1, k2, k3⟩ :=
      ih (fun d hd => htext d (List.mem_cons_of_mem _ hd)) old1 h2 h3
    exact ⟨old2, by simp only [match_loop, h1]; exact k1, k2, k3⟩

/-! ## Duplicate edges -/

theorem add_state_loop_append
    (call : Nat → Stack → List Bool → Except Fault (Stack × List Bool)) :
    ∀ (l1 l2 : List Nat) (st : Stack) (buf : List Bool),
      add_state_loop call (l1 ++ l2) st buf =
        match add_state_loop call l1 st buf with
        | .error e => .error e
        | .ok r => add_state_loop call l2 r.1 r.2 := by
  intro l1
  induction l1 with
  | nil => intro l2 st buf; rfl
  | cons t l1 ih =>
    intro l2 st buf
    simp only [List.cons_append, add_state_loop]
    cases buf[t]? with
    | none => rfl
    | some b =>
      cases b with
      | true => exact ih l2 st buf
      | false =>
        simp only []
        cases call t st buf with
        | error e => rfl
        | ok r => exact ih l2 r.1 r.2

/-- A second copy of a neighbour at the end of an adjacency list changes
nothing: when the loop reaches it, the first copy has been marked. -/
theorem add_state_loop_dup
    (call : Nat → Stack → List Bool → Except Fault (Stack × List Bool))
    (hcall : ∀ t st buf r, call t st buf = .ok r →
      r.2.length = buf.length ∧ r.2[t]? = some true ∧
        ∀ x : Nat, buf[x]? = some true → r.2[x]? = some true)
    (l : List Nat) (v : Nat) (hv : v ∈ l) (st : Stack) (buf : List Bool) :
    add_state_loop call (l ++ [v]) st buf = add_state_loop call l st buf := by
  rw [add_state_loop_append]
  cases h : add_state_loop call l st buf with
  | error e => rfl
  | ok r =>
    have hm := (add_state_loop_marks call hcall l st buf r h).2.1 v hv
    simp only [add_state_loop, hm]

theorem add_state_withEdge (g : Graph) (u v : Nat) (l : List Nat) (hl : g.adj[u]? = some l)
    (hv : v ∈ l) :
    ∀ (fuel s : Nat) (st : Stack) (buf : List Bool),
      add_state (withEdge g u l v) fuel s st buf = add_state g fuel s st buf := by
  intro fuel
  induction fuel with
  | zero => intro s st buf; rfl
  | succ fuel ih =>
    intro s st buf
    have hfun : add_state (withEdge g u l v) fuel = add_state g fuel := by
      funext s st buf
      exact ih s st buf
    simp only [add_state, hfun]
    split
    · by_cases hus : u = s
      · subst hus
        have hul : u < g.adj.length := lt_length_of_getElem? hl
        have h1 : (withEdge g u l v).adj[u]? = some (l ++ [v]) := by
          simp only [withEdge, List.getElem?_set_self hul]
        rw [h1, hl]
        exact add_state_loop_dup _ (add_state_marks g fuel) l v hv _ _
      · have h1 : (withEdge g u l v).adj[s]? = g.adj[s]? := by
          simp only [withEdge, List.getElem?_set_ne hus]
        rw [h1]
    · rfl

theorem make_next_moves_scan_withEdge (g : Graph) (u v : Nat) (l : List Nat)
    (hl : g.adj[u]? = some l) (hv : v ∈ l) (c : Char) :
    ∀ (old new : Stack) (buf : List Bool),
      make_next_moves_scan (withEdge g u l v) c old new buf =
        make_next_moves_scan g c old new buf := by
  intro old
  induction old with
  | nil => intro new buf; rfl
  | cons s old ih =>
    intro new buf
    have hval : (withEdge g u l v).values = g.values := rfl
    have hsize : (withEdge g u l v).size = g.size := rfl
    simp only [make_next_moves_scan, hval, hsize, add_state_withEdge g u v l hl hv, ih]

/-- `match` returns the same on a graph and on the graph with a neighbour stored
a second time. -/
theorem match_nfa_withEdge (g : Graph) (u v : Nat) (l : List Nat) (hl : g.adj[u]? = some l)
    (hv : v ∈ l) (text : List Char) :
    match_nfa (withEdge g u l v) text = match_nfa g text := by
  have hsize : (withEdge g u l v).size = g.size := rfl
  have hmove : ∀ c old new buf, make_next_moves (withEdge g u l v) c old new buf =
      make_next_moves g c old new buf := by
    intro c old new buf
    simp only [make_next_moves, make_next_moves_scan_withEdge g u v l hl hv]
  have hloop : ∀ (t : List Char) old new buf, match_loop (withEdge g u l v) t old new buf =
      match_loop g t old new buf := by
    intro t
    induction t with
    | nil => intro old new buf; rfl
    | cons c t ih =>
      intro old new buf
      simp only [match_loop, hmove, ih]
  simp only [match_nfa, epsilon_closure, hsize, add_state_withEdge g u v l hl hv, hloop]

/-! ## The claims -/

/-- C1: for a pattern `p` containing none of the metacharacters `.`, `(`, `)`,
`|`, `*`, `?` and a text `t` (a C string, so without NUL), compiling `p` and
matching `t` returns true exactly when `t` equals `p`; in particular the empty
pattern accepts the empty text and rejects every other text. -/
theorem C1_plain_pattern_accepts_itself_only (p t : List Char) (hp : ∀ c ∈ p, ¬ isMeta c)
    (ht : NUL ∉ t) :
    main p t = .ok (decide (t = p)) ∧ main [] t = .ok (decide (t = [])) :=
  ⟨main_plain p t hp ht, main_plain [] t (fun _ h => nomatch h) ht⟩

/-- C1 at the pattern "ab" and the text "ac". -/
theorem C1_plain_pattern_accepts_itself_only_witness :
    (∀ c ∈ ['a', 'b'], ¬ isMeta c) ∧ NUL ∉ ['a', 'c'] ∧
      main ['a', 'b'] ['a', 'c'] = .ok (decide (['a', 'c'] = ['a', 'b'])) ∧
      main [] ['a', 'c'] = .ok (decide (['a', 'c'] = ([] : List Char))) :=
  ⟨by decide, by decide,
    C1_plain_pattern_accepts_itself_only ['a', 'b'] ['a', 'c'] (by decide) (by decide)⟩

/-- C2 as stated fails: on the graph with states 0 and 1, the edge 0 → 1 and
the value `'.'` at state 1, and the text "a", the specification's simulation
has state 1 active at the end, while `match` reads `already_on[2]` outside its
two cells. -/
theorem C2_counterexample :
    InRange dotEndGraph ∧ dotEndGraph.size = 1 + 1 ∧ NUL ∉ ['a'] ∧
      specMatches dotEndGraph 1 ['a'] ∧
      match_nfa dotEndGraph ['a'] = .error .outOfBounds ∧
      ¬ (match_nfa dotEndGraph ['a'] = .ok true ↔ specMatches dotEndGraph 1 ['a']) := by
  have hspec : specMatches dotEndGraph 1 ['a'] :=
    ⟨0, Relation.ReflTransGen.refl, by decide, Or.inl (by decide), Relation.ReflTransGen.refl⟩
  have hrun : match_nfa dotEndGraph ['a'] = .error .outOfBounds := by decide
  refine ⟨by decide, by decide, by decide, hspec, hrun, ?_⟩
  intro h
  have := h.2 hspec
  rw [hrun] at this
  cases this

/-- C2 (amended): for every graph with `N + 1` states and in-range epsilon
edges whose state `N` has a value that is neither `'.'` nor a character of the
text, the stack-based `match` returns a boolean, and it returns true exactly
when state `N` is in the specification's active set `A_len(text)`. -/
theorem C2_match_refines_set_simulation (g : Graph) (N : Nat) (text : List Char)
    (hsize : g.size = N + 1) (hg : InRange g) (hdot : g.values[N]? ≠ some '.')
    (htext : ∀ c ∈ text, g.values[N]? ≠ some c) :
    (∃ b, match_nfa g text = .ok b) ∧
      (match_nfa g text = .ok true ↔ N ∈ specActive g N text) := by
  have hlast : ∀ c ∈ text, ¬ Fires g c N := by
    intro c hc hf
    rcases (fires_iff g c N).1 hf with h | h
    · exact htext c hc h
    · exact hdot h
  obtain ⟨b, hb, hiff⟩ := match_nfa_refines g N text hg hsize hlast
  refine ⟨⟨b, hb⟩, ?_⟩
  rw [hb]
  constructor
  · intro h
    exact hiff.1 (Except.ok.inj h)
  · intro h
    rw [hiff.2 h]

/-- C2 (amended) at the graph of `(a|b)*` and the text "ab". -/
theorem C2_match_refines_set_simulation_witness :
    altStarGraph.size = 6 + 1 ∧ InRange altStarGraph ∧
      altStarGraph.values[6]? ≠ some '.' ∧
      (∀ c ∈ ['a', 'b'], altStarGraph.values[6]? ≠ some c) ∧
      ((∃ b, match_nfa altStarGraph ['a', 'b'] = .ok b) ∧
        (match_nfa altStarGraph ['a', 'b'] = .ok true ↔
          6 ∈ specActive altStarGraph 6 ['a', 'b'])) :=
  ⟨by decide, by decide, by decide, by decide,
    C2_match_refines_set_simulation altStarGraph 6 ['a', 'b'] (by decide) (by decide)
      (by decide) (by decide)⟩

/-- C3 as stated fails: the automaton of `a|b` rejects the texts "a" and "b",
which the claim wants accepted. -/
theorem C3_counterexample :
    main ['a', '|', 'b'] ['a'] = .ok false ∧ main ['a', '|', 'b'] ['b'] = .ok false ∧
      main ['a', '|', 'b'] ['a'] ≠ .ok true ∧ main ['a', '|', 'b'] ['b'] ≠ .ok true := by
  decide

/-- C3 (amended): for the pattern `a|b` the builder adds no edge (no `)` ever
pops the index of `|`), and the automaton rejects the texts "a", "b", "", "ab"
and "c"; the automaton of the parenthesised pattern `(a|b)` accepts "a" and
"b" and rejects "", "ab" and "c". -/
theorem C3_alternation_needs_parentheses :
    build_nfa ['a', '|', 'b'] =
        .ok { size := 4, values := ['a', '|', 'b', NUL], adj := [[], [], [], []] } ∧
      main ['a', '|', 'b'] ['a'] = .ok false ∧ main ['a', '|', 'b'] ['b'] = .ok false ∧
      main ['a', '|', 'b'] [] = .ok false ∧ main ['a', '|', 'b'] ['a', 'b'] = .ok false ∧
      main ['a', '|', 'b'] ['c'] = .ok false ∧
      main ['(', 'a', '|', 'b', ')'] ['a'] = .ok true ∧
      main ['(', 'a', '|', 'b', ')'] ['b'] = .ok true ∧
      main ['(', 'a', '|', 'b', ')'] [] = .ok false ∧
      main ['(', 'a', '|', 'b', ')'] ['a', 'b'] = .ok false ∧
      main ['(', 'a', '|', 'b', ')'] ['c'] = .ok false := by
  decide

/-- C4 as stated fails: the text "(a" has the character `(`, which is neither
`a` nor `b`, and the automaton of `(a|b)*` accepts it, state 0 carrying the
value `(`. -/
theorem C4_counterexample :
    (∃ c ∈ ['(', 'a'], c ≠ 'a' ∧ c ≠ 'b') ∧
      main ['(', 'a', '|', 'b', ')', '*'] ['(', 'a'] = .ok true := by
  decide

/-- C4 (amended): every text (a C string, so without NUL) in which some
character is none of the six pattern characters `(`, `a`, `|`, `b`, `)`, `*`
is rejected by the automaton of `(a|b)*`. -/
theorem C4_foreign_character_rejected (t : List Char) (ht : NUL ∉ t)
    (hc : ∃ c ∈ t, c ∉ ['(', 'a', '|', 'b', ')', '*']) :
    main ['(', 'a', '|', 'b', ')', '*'] t = .ok false := by
  obtain ⟨c, hct, hc6⟩ := hc
  refine (main_refines _ t altStarGraph 6 altStarGraph_built (by decide) rfl (by decide) ht).2 ?_
  rw [specMatches, specActive,
    foldl_specStep_dead altStarGraph 6 c (altStarGraph_dead c hc6) t _ hct]
  exact fun h => h

/-- C4 (amended) at the text "acb". -/
theorem C4_foreign_character_rejected_witness :
    NUL ∉ ['a', 'c', 'b'] ∧ (∃ c ∈ ['a', 'c', 'b'], c ∉ ['(', 'a', '|', 'b', ')', '*']) ∧
      main ['(', 'a', '|', 'b', ')', '*'] ['a', 'c', 'b'] = .ok false :=
  ⟨by decide, by decide,
    C4_foreign_character_rejected ['a', 'c', 'b'] (by decide) (by decide)⟩

/-- C5: every text made of the letters `a` and `b` only, the empty text
included, is accepted by the automaton of `(a|b)*`. -/
theorem C5_ab_texts_accepted (t : List Char) (ht : ∀ c ∈ t, c = 'a' ∨ c = 'b') :
    main ['(', 'a', '|', 'b', ')', '*'] t = .ok true := by
  have hnul : NUL ∉ t := by
    intro h
    rcases ht _ h with h | h <;> revert h <;> decide
  refine (main_refines _ t altStarGraph 6 altStarGraph_built (by decide) rfl (by decide)
    hnul).1 ?_
  obtain ⟨r01, r03, r06, _, _⟩ := altStarGraph_reach
  exact altStarGraph_run t ht _ r01 r03 r06

/-- C5 at the text "abba". -/
theorem C5_ab_texts_accepted_witness :
    (∀ c ∈ ['a', 'b', 'b', 'a'], c = 'a' ∨ c = 'b') ∧
      main ['(', 'a', '|', 'b', ')', '*'] ['a', 'b', 'b', 'a'] = .ok true :=
  ⟨by decide, C5_ab_texts_accepted ['a', 'b', 'b', 'a'] (by decide)⟩

/-- C6 as stated fails: the automaton of `a?` accepts the text "?", which is
neither "" nor "a" (state 1 carries the value `?`). -/
theorem C6_counterexample :
    main ['a', '?'] ['?'] = .ok true ∧ ['?'] ≠ ([] : List Char) ∧ ['?'] ≠ ['a'] := by
  decide

/-- C6 (amended): for every text `t` (a C string, so without NUL) the automaton
of `a?` returns true exactly when `t` is "", "a", "?" or "a?". -/
theorem C6_optional_accepts_four_texts (t : List Char) (ht : NUL ∉ t) :
    main ['a', '?'] t =
      .ok (decide (t = [] ∨ t = ['a'] ∨ t = ['?'] ∨ t = ['a', '?'])) := by
  have h := main_refines _ t optGraph 2 optGraph_built (by decide) rfl (by decide) ht
  by_cases hs : specMatches optGraph 2 t
  · rw [h.1 hs, decide_eq_true ((optGraph_spec t).1 hs)]
  · rw [h.2 hs, decide_eq_false (fun hc => hs ((optGraph_spec t).2 hc))]

/-- C6 (amended) at the text "aa". -/
theorem C6_optional_accepts_four_texts_witness :
    NUL ∉ ['a', 'a'] ∧
      main ['a', '?'] ['a', 'a'] =
        .ok (decide (['a', 'a'] = [] ∨ ['a', 'a'] = ['a'] ∨ ['a', 'a'] = ['?'] ∨
          ['a', 'a'] = ['a', '?'])) :=
  ⟨by decide, C6_optional_accepts_four_texts ['a', 'a'] (by decide)⟩

/-- C7: the automaton of `(ab)*` accepts the text made of `n` copies of "ab"
for every `n` (so "", "ab", "abab") and rejects the texts "aba" and "a". -/
theorem C7_group_star (n : Nat) :
    main ['(', 'a', 'b', ')', '*'] (repeatText ['a', 'b'] n) = .ok true ∧
      main ['(', 'a', 'b', ')', '*'] [] = .ok true ∧
      main ['(', 'a', 'b', ')', '*'] ['a', 'b'] = .ok true ∧
      main ['(', 'a', 'b', ')', '*'] ['a', 'b', 'a', 'b'] = .ok true ∧
      main ['(', 'a', 'b', ')', '*'] ['a', 'b', 'a'] = .ok false ∧
      main ['(', 'a', 'b', ')', '*'] ['a'] = .ok false := by
  refine ⟨?_, by decide, by decide, by decide, by decide, by decide⟩
  have hnul : NUL ∉ repeatText ['a', 'b'] n := by
    induction n with
    | zero => exact List.not_mem_nil _
    | succ n ih =>
      simp only [repeatText, List.cons_append, List.nil_append, List.mem_cons, not_or]
      exact ⟨by decide, by decide, ih⟩
  refine (main_refines _ _ groupStarGraph 5 groupStarGraph_built (by decide) rfl (by decide)
    hnul).1 ?_
  have e01 : Edge groupStarGraph 0 1 := by decide
  have e04 : Edge groupStarGraph 0 4 := by decide
  have e45 : Edge groupStarGraph 4 5 := by decide
  exact groupStarGraph_run n _ (.single e01) (.head e04 (.single e45))

/-- C8: for every text `t` (a C string, so without NUL) the automaton of `.`
returns true exactly when `t` has one character, whatever it is. -/
theorem C8_dot_accepts_single_characters (t : List Char) (ht : NUL ∉ t) :
    main ['.'] t = .ok (decide (t.length = 1)) := by
  have h := main_refines _ t dotGraph 1 dotGraph_built (by decide) rfl (by decide) ht
  by_cases hs : specMatches dotGraph 1 t
  · rw [h.1 hs, decide_eq_true ((dotGraph_spec t).1 hs)]
  · rw [h.2 hs, decide_eq_false (fun hc => hs ((dotGraph_spec t).2 hc))]

/-- C8 at the text "x". -/
theorem C8_dot_accepts_single_characters_witness :
    NUL ∉ ['x'] ∧ main ['.'] ['x'] = .ok (decide (['x'].length = 1)) :=
  ⟨by decide, C8_dot_accepts_single_characters ['x'] (by decide)⟩

/-- C9: the automaton of `a*` accepts the text made of `n` copies of `a` for
every `n` (so "", "a", "aaaa") and rejects the texts "b" and "ab". -/
theorem C9_star (n : Nat) :
    main ['a', '*'] (List.replicate n 'a') = .ok true ∧
      main ['a', '*'] [] = .ok true ∧ main ['a', '*'] ['a'] = .ok true ∧
      main ['a', '*'] ['a', 'a', 'a', 'a'] = .ok true ∧
      main ['a', '*'] ['b'] = .ok false ∧ main ['a', '*'] ['a', 'b'] = .ok false := by
  refine ⟨?_, by decide, by decide, by decide, by decide, by decide⟩
  have hnul : NUL ∉ List.replicate n 'a' := by
    intro h
    have := (List.mem_replicate.1 h).2
    revert this
    decide
  refine (main_refines _ _ starGraph 2 starGraph_built (by decide) rfl (by decide) hnul).1 ?_
  have e01 : Edge starGraph 0 1 := by decide
  have e12 : Edge starGraph 1 2 := by decide
  exact starGraph_run n _ .refl (.head e01 (.single e12))

/-- C10 as stated fails: on the malformed pattern "(a" `build_nfa` returns an
automaton (three states, the edge 0 → 1), and `match` yields a boolean on it. -/
theorem C10_counterexample :
    build_nfa ['(', 'a'] =
        .ok { size := 3, values := ['(', 'a', NUL], adj := [[1], [], []] } ∧
      main ['(', 'a'] ['a'] = .ok true := by
  decide

/-- C10 (amended): `build_nfa` reports no compile error.  On "(a" and on "*a"
it returns an automaton with three states and the single edge 0 → 1, on which
`match` yields a boolean; on "a)" it pops the empty operator stack. -/
theorem C10_malformed_patterns :
    build_nfa ['(', 'a'] =
        .ok { size := 3, values := ['(', 'a', NUL], adj := [[1], [], []] } ∧
      build_nfa ['*', 'a'] =
        .ok { size := 3, values := ['*', 'a', NUL], adj := [[1], [], []] } ∧
      main ['(', 'a'] ['a'] = .ok true ∧ main ['(', 'a'] ['b'] = .ok false ∧
      main ['*', 'a'] ['a'] = .ok true ∧ main ['*', 'a'] ['b'] = .ok false ∧
      build_nfa ['a', ')'] = .error .emptyStack := by
  decide

/-- C11: for every pattern `p` with balanced parentheses and every text `t` (a
C string, so without NUL), `build_nfa` returns an automaton and `match` on it
returns a boolean: no run pops the empty stack, indexes an array outside its
bounds or exhausts the recursion budget. -/
theorem C11_match_never_fails (p t : List Char) (hp : Balanced p) (ht : NUL ∉ t) :
    ∃ g, build_nfa p = .ok g ∧ ∃ b, match_nfa g t = .ok b ∧ main p t = .ok b := by
  obtain ⟨g, _, _, _, hb, hbuilt⟩ := build_nfa_balanced p hp.1
  obtain ⟨b, h1, _⟩ := match_nfa_refines g p.length t (built_inRange hbuilt) hbuilt.1
    (last_never_fires g p.length (built_last hbuilt) t ht)
  exact ⟨g, hb, b, h1, by simp only [main, hb, h1]⟩

/-- C11 at the pattern "(a|b)*" and the text "ab(". -/
theorem C11_match_never_fails_witness :
    Balanced ['(', 'a', '|', 'b', ')', '*'] ∧ NUL ∉ ['a', 'b', '('] ∧
      ∃ g, build_nfa ['(', 'a', '|', 'b', ')', '*'] = .ok g ∧
        ∃ b, match_nfa g ['a', 'b', '('] = .ok b ∧
          main ['(', 'a', '|', 'b', ')', '*'] ['a', 'b', '('] = .ok b :=
  ⟨by decide, by decide,
    C11_match_never_fails ['(', 'a', '|', 'b', ')', '*'] ['a', 'b', '('] (by decide)
      (by decide)⟩

/-- C12: when `build_nfa` returns a graph for a pattern `p` of length `N`, the
graph has `N + 1` states (values and adjacency lists), state `i < N` carries
the value `p[i]`, state `N` the terminator, and `N = size - 1` is the state the
final loop of `match` looks for. -/
theorem C12_states_and_tags (p : List Char) (g : Graph) (h : build_nfa p = .ok g) :
    g.size = p.length + 1 ∧ g.values.length = p.length + 1 ∧ g.adj.length = p.length + 1 ∧
      (∀ i, i < p.length → g.values[i]? = p[i]?) ∧ g.values[p.length]? = some NUL ∧
      (g.size : Int) - 1 = (p.length : Int) ∧
      ∀ old, match_final ((g.size : Int) - 1) old = decide (p.length ∈ old) := by
  have hb := build_nfa_built p g h
  obtain ⟨h1, h2, h3, _⟩ := id hb
  refine ⟨h1, by rw [h2]; simp, h3, ?_, built_last hb, by rw [h1]; push_cast; omega, ?_⟩
  · intro i hi
    rw [h2, List.getElem?_append_left hi]
  · intro old
    rw [h1]
    exact match_final_eq_decide p.length old

/-- C12 at the pattern "a*", whose graph has the values `a`, `*`, NUL. -/
theorem C12_states_and_tags_witness :
    build_nfa ['a', '*'] = .ok starGraph ∧
      starGraph.size = ['a', '*'].length + 1 ∧
      starGraph.values.length = ['a', '*'].length + 1 ∧
      starGraph.adj.length = ['a', '*'].length + 1 ∧
      (∀ i, i < ['a', '*'].length → starGraph.values[i]? = ['a', '*'][i]?) ∧
      starGraph.values[['a', '*'].length]? = some NUL ∧
      (starGraph.size : Int) - 1 = (['a', '*'].length : Int) ∧
      ∀ old, match_final ((starGraph.size : Int) - 1) old =
        decide (['a', '*'].length ∈ old) :=
  ⟨by decide, C12_states_and_tags ['a', '*'] starGraph (by decide)⟩

/-- C13: on a graph with in-range edges (cycles allowed), `add_state` from a state
`s`, started with the empty stack and a cleared buffer and given a recursion
bound of at least `size`, leaves on the stack exactly the states reachable from
`s` by epsilon edges, each once, and marks exactly those states; and
`epsilon_closure` does so from state 0. -/
theorem C13_closure_is_reachability (g : Graph) (s fuel : Nat) (hg : InRange g)
    (hs : s < g.size) (hfuel : g.size ≤ fuel) :
    (∃ stack buf, add_state g fuel s [] (init_bool_buffer g.size false) = .ok (stack, buf) ∧
        stack.Nodup ∧ (∀ t, t ∈ stack ↔ Reach g s t) ∧ buf.length = g.size ∧
        (∀ t, buf[t]? = some true ↔ Reach g s t)) ∧
      (∃ stack, epsilon_closure g [] = .ok stack ∧ stack.Nodup ∧
        ∀ t, t ∈ stack ↔ Reach g 0 t) := by
  have hoff : ∀ t : Nat, (init_bool_buffer g.size false)[t]? ≠ some true := by
    intro t
    simp only [init_bool_buffer, List.getElem?_replicate]
    split <;> simp
  obtain ⟨p, buf1, e1, e2, e3, _, e5, e6, _⟩ :=
    add_state_closure g (by rw [hg.1]; exact hg.2.2) fuel s []
      (init_bool_buffer g.size false) (by simp [init_bool_buffer, hg.1])
      (by simp [init_bool_buffer, List.getElem?_replicate, hs])
      (by
        have := List.count_le_length false (init_bool_buffer g.size false)
        simp only [init_bool_buffer, List.length_replicate] at this ⊢
        omega)
      (by intro u v hu; exact absurd hu (hoff u))
  have h6 : ∀ t, buf1[t]? = some true ↔ Reach g s t := by
    intro t
    rw [e6 t]
    exact ⟨fun h => h.elim (fun h => absurd h (hoff t)) id, Or.inr⟩
  have h5 : ∀ t, t ∈ p ↔ Reach g s t := by
    intro t
    rw [← h6 t, e5 t]
    exact ⟨Or.inr, fun h => h.elim (fun h => absurd h (hoff t)) id⟩
  refine ⟨⟨p, buf1, by rw [e1, List.append_nil], e3, h5,
    by rw [e2]; simp [init_bool_buffer], h6⟩, ?_⟩
  obtain ⟨old, k1, k2, _, k4⟩ := epsilon_closure_spec g hg (by omega)
  exact ⟨old, k1, k2, k4⟩

/-- C13 at the graph of `a*`, whose edges 0 → 1 and 1 → 0 form a cycle, from
state 1. -/
theorem C13_closure_is_reachability_witness :
    InRange starGraph ∧ 1 < starGraph.size ∧ starGraph.size ≤ 3 ∧
      ((∃ stack buf,
          add_state starGraph 3 1 [] (init_bool_buffer starGraph.size false) =
            .ok (stack, buf) ∧
          stack.Nodup ∧ (∀ t, t ∈ stack ↔ Reach starGraph 1 t) ∧
          buf.length = starGraph.size ∧
          (∀ t, buf[t]? = some true ↔ Reach starGraph 1 t)) ∧
        (∃ stack, epsilon_closure starGraph [] = .ok stack ∧ stack.Nodup ∧
          ∀ t, t ∈ stack ↔ Reach starGraph 0 t)) :=
  ⟨by decide, by decide, by decide,
    C13_closure_is_reachability starGraph 1 3 (by decide) (by decide) (by decide)⟩

/-- C14 as stated fails: the pattern "a|b" has balanced parentheses and no
quantifier at all, and `build_transitions` ends its scan with the index of the
`|` on the operator stack. -/
theorem C14_counterexample :
    Balanced ['a', '|', 'b'] ∧ '*' ∉ ['a', '|', 'b'] ∧ '?' ∉ ['a', '|', 'b'] ∧
      build_transitions (plainGraph ['a', '|', 'b']) [] =
        .ok (plainGraph ['a', '|', 'b'], [1]) := by
  decide

/-- C14 (amended): when no `)` of the pattern lacks its `(`, no group is left
open and no group has two top-level `|`, the operator stack at the end of the
scan of `build_transitions` holds exactly the indices `bars` of the `|` outside
all parentheses, latest on top; it is empty when there is no such `|`. -/
theorem C14_final_operator_stack (p : List Char) (bars : List Nat)
    (h : groupsAt p p.length = some ([], bars)) :
    (∃ g, build_transitions (plainGraph p) [] = .ok (g, bars)) ∧
      (∀ m ∈ bars, p[m]? = some '|') ∧
      (bars = [] → ∃ g, build_transitions (plainGraph p) [] = .ok (g, [])) := by
  obtain ⟨g, e, _, _⟩ := build_loop_groups p p.length (le_refl _) [] bars h
  have hrun : build_transitions (plainGraph p) [] = .ok (g, bars) := by
    simp only [build_transitions, plainGraph, Nat.add_one_ne_zero, if_false,
      Nat.add_sub_cancel]
    simpa [frameEntries] using e
  refine ⟨⟨g, hrun⟩, (opsRun_groups p p.length [] bars h).2.2, ?_⟩
  intro hb
  subst hb
  exact ⟨g, hrun⟩

/-- C14 (amended) at the pattern "(a|b)*c", which leaves the stack empty. -/
theorem C14_final_operator_stack_witness :
    groupsAt ['(', 'a', '|', 'b', ')', '*', 'c'] ['(', 'a', '|', 'b', ')', '*', 'c'].length =
        some ([], []) ∧
      ((∃ g, build_transitions (plainGraph ['(', 'a', '|', 'b', ')', '*', 'c']) [] =
          .ok (g, [])) ∧
        (∀ m ∈ ([] : List Nat), ['(', 'a', '|', 'b', ')', '*', 'c'][m]? = some '|') ∧
        (([] : List Nat) = [] →
          ∃ g, build_transitions (plainGraph ['(', 'a', '|', 'b', ')', '*', 'c']) [] =
            .ok (g, []))) :=
  ⟨by decide, C14_final_operator_stack ['(', 'a', '|', 'b', ')', '*', 'c'] [] (by decide)⟩

/-- C15: on a pattern with balanced parentheses `build_transitions`, run as
`build_nfa` runs it on the edgeless graph of the pattern, never pops the empty
operator stack, neither at the first nor at the second `pop` of a `)`: every
iteration leaves a stack, and the scan and `build_nfa` return without a
fault. -/
theorem C15_no_pop_on_empty_stack (p : List Char) (hp : Balanced p) :
    set_graph_vals_from_string (init_graph (p.length + 1)) p = .ok (plainGraph p) ∧
      (∀ k, k ≤ p.length → ∃ ops, opsRun p k = some ops) ∧
      (∃ g ops, build_transitions (plainGraph p) [] = .ok (g, ops) ∧ build_nfa p = .ok g) ∧
      build_transitions (plainGraph p) [] ≠ .error .emptyStack ∧
      build_nfa p ≠ .error .emptyStack := by
  obtain ⟨g, ops, _, h2, h3, _⟩ := build_nfa_balanced p hp.1
  have n2 : build_transitions (plainGraph p) [] ≠ .error .emptyStack := by
    rw [h2]
    intro h
    cases h
  have n3 : build_nfa p ≠ .error .emptyStack := by
    rw [h3]
    intro h
    cases h
  refine ⟨?_, ?_, ⟨g, ops, h2, h3⟩, n2, n3⟩
  · have htake : List.take (p.length + 1) (p ++ [NUL]) = p ++ [NUL] :=
      List.take_of_length_le (by simp)
    simp only [set_graph_vals_from_string, init_graph, le_refl, if_true, htake]
    rfl
  · intro k hk
    obtain ⟨o, ho, _⟩ := opsRun_balanced p hp.1 k hk
    exact ⟨o, ho⟩

/-- C15 at the pattern "((a|b)|c)". -/
theorem C15_no_pop_on_empty_stack_witness :
    Balanced ['(', '(', 'a', '|', 'b', ')', '|', 'c', ')'] ∧
      build_nfa ['(', '(', 'a', '|', 'b', ')', '|', 'c', ')'] ≠ .error .emptyStack :=
  ⟨by decide,
    (C15_no_pop_on_empty_stack ['(', '(', 'a', '|', 'b', ')', '|', 'c', ')']
      (by decide)).2.2.2.2⟩

/-- C16 as stated fails: in the pattern "(a|b|c)", with balanced parentheses and
no quantifier, the `)` at index 6 pops the `|` at index 4 and its second `pop`
returns 2, the index of the other `|`, not the index 0 of the matching `(`; the
edges added are 2 → 5 and 4 → 6 and `lp` is 2. -/
theorem C16_counterexample :
    Balanced ['(', 'a', '|', 'b', '|', 'c', ')'] ∧
      '*' ∉ ['(', 'a', '|', 'b', '|', 'c', ')'] ∧ '?' ∉ ['(', 'a', '|', 'b', '|', 'c', ')'] ∧
      build_loop 6 0 (plainGraph ['(', 'a', '|', 'b', '|', 'c', ')']) [] =
        .ok ({ size := 8, values := ['(', 'a', '|', 'b', '|', 'c', ')', NUL],
               adj := [[1], [], [], [], [], [], [], []] }, [4, 2, 0]) ∧
      build_group { size := 8, values := ['(', 'a', '|', 'b', '|', 'c', ')', NUL],
                    adj := [[1], [], [], [], [], [], [], []] } [4, 2, 0] 6 ')' =
        .ok ({ size := 8, values := ['(', 'a', '|', 'b', '|', 'c', ')', NUL],
               adj := [[1], [], [5], [], [6], [], [], []] }, [0], 2) ∧
      ['(', 'a', '|', 'b', '|', 'c', ')'][2]? = some '|' ∧
      ['(', 'a', '|', 'b', '|', 'c', ')'][0]? = some '(' := by
  decide

/-- C16 (amended): let the `)` at index `i` close the group opened at index
`o`, let that group have exactly one top-level `|`, at index `m`, and let no
`)` before `i` lack its `(` or close a group with two top-level `|`.  Then
iteration `i` of `build_transitions` starts with `m` on top of the operator
stack and `o` below it: the first `pop` returns `m`, the second returns `o`,
the edges `o → m+1` and `m → i` are added, and `lp` is `o`, so that the edges of
a following quantifier start at `o`. -/
theorem C16_alternation_edges (p : List Char) (i o m : Nat) (fs : List Frame)
    (bars : List Nat) (hi : p[i]? = some ')')
    (hg : groupsAt p i = some ((o, [m]) :: fs, bars)) :
    p[o]? = some '(' ∧ p[m]? = some '|' ∧
      ∃ g g1 g2 rest, build_loop i 0 (plainGraph p) [] = .ok (g, m :: o :: rest) ∧
        pop (m :: o :: rest) = .ok (m, o :: rest) ∧ pop (o :: rest) = .ok (o, rest) ∧
        add_edge g o (m + 1) = .ok g1 ∧ add_edge g1 m i = .ok g2 ∧
        build_group g (m :: o :: rest) i ')' = .ok (g2, rest, o) ∧
        ∀ cn, rd g.values (i + 1) = .ok cn →
          build_step g (m :: o :: rest) i =
            match build_quant g2 o i ')' cn with
            | .error e => .error e
            | .ok g4 => .ok (g4, rest) := by
  have hil : i < p.length := lt_length_of_getElem? hi
  obtain ⟨_, hfs, _⟩ := opsRun_groups p i _ bars hg
  have h0 := hfs (o, [m]) (List.mem_cons_self _ _)
  have hm : p[m]? = some '|' := h0.2 m (List.mem_singleton_self _)
  obtain ⟨g, e, b, hops⟩ := build_loop_groups p i (by omega) _ bars hg
  have hstack : frameEntries ((o, [m]) :: fs) ++ bars = m :: o :: (frameEntries fs ++ bars) := by
    simp [frameEntries]
  rw [hstack] at e hops
  have hmi : m < i := hops m (List.mem_cons_self _ _)
  have hoi : o < i := hops o (List.mem_cons_of_mem _ (List.mem_cons_self _ _))
  obtain ⟨g1, e1, b1⟩ := add_edge_built b (u := o) (v := m + 1) (by omega) (by omega)
  obtain ⟨g2, e2, _⟩ := add_edge_built b1 (u := m) (v := i) (by omega) (by omega)
  have hrdm : rd g.values m = .ok '|' := built_rd_lt b hm
  have hn : ¬ (')' = '(' ∨ ')' = '|') := by decide
  have hgroup : build_group g (m :: o :: (frameEntries fs ++ bars)) i ')' =
      .ok (g2, frameEntries fs ++ bars, o) := by
    simp only [build_group, hn, if_false, if_true, pop, bind, Except.bind, hrdm, e1, e2]
    rfl
  refine ⟨h0.1, hm, g, g1, g2, frameEntries fs ++ bars, e, rfl, rfl, e1, e2, hgroup, ?_⟩
  intro cn hcn
  rw [build_step_eq]
  simp only [built_rd_lt b hi, hgroup, hcn]

/-- C16 (amended) at the `)` at index 4 of the pattern "(a|b)*". -/
theorem C16_alternation_edges_witness :
    ['(', 'a', '|', 'b', ')', '*'][4]? = some ')' ∧
      groupsAt ['(', 'a', '|', 'b', ')', '*'] 4 = some ((0, [2]) :: [], []) ∧
      (['(', 'a', '|', 'b', ')', '*'][0]? = some '(' ∧
        ['(', 'a', '|', 'b', ')', '*'][2]? = some '|' ∧
        ∃ g g1 g2 rest,
          build_loop 4 0 (plainGraph ['(', 'a', '|', 'b', ')', '*']) [] =
            .ok (g, 2 :: 0 :: rest) ∧
          pop (2 :: 0 :: rest) = .ok (2, 0 :: rest) ∧ pop (0 :: rest) = .ok (0, rest) ∧
          add_edge g 0 (2 + 1) = .ok g1 ∧ add_edge g1 2 4 = .ok g2 ∧
          build_group g (2 :: 0 :: rest) 4 ')' = .ok (g2, rest, 0) ∧
          ∀ cn, rd g.values (4 + 1) = .ok cn →
            build_step g (2 :: 0 :: rest) 4 =
              match build_quant g2 0 4 ')' cn with
              | .error e => .error e
              | .ok g4 => .ok (g4, rest)) :=
  ⟨by decide, by decide,
    C16_alternation_edges ['(', 'a', '|', 'b', ')', '*'] 4 0 2 [] [] (by decide) (by decide)⟩

/-- C17 as stated fails: the graph with states 0 and 1, the edge 0 → 1 and the
value `'.'` at state 1 has in-range edges, and after `epsilon_closure` the
call of `make_next_moves` for the text character `a` reads `already_on[2]`
outside its two cells, so that there is no state after the call. -/
theorem C17_counterexample :
    InRange dotEndGraph ∧ epsilon_closure dotEndGraph [] = .ok [1, 0] ∧
      make_next_moves dotEndGraph 'a' [1, 0] [] (init_bool_buffer dotEndGraph.size false) =
        .error .outOfBounds ∧
      match_loop dotEndGraph ['a'] [1, 0] [] (init_bool_buffer dotEndGraph.size false) =
        .error .outOfBounds := by
  decide

/-- C17 (amended): on a graph with `N + 1` states and in-range edges whose state
`N` has a value that is neither `'.'` nor a character of the text, the initial
`epsilon_closure` and every further call of `make_next_moves` (the run over any
prefix `pre` of the text) return with pairwise distinct states in
`old_states`, an empty `new_states` and an all-false `already_on`. -/
theorem C17_active_states_distinct (g : Graph) (N : Nat) (text : List Char)
    (hsize : g.size = N + 1) (hg : InRange g) (hdot : g.values[N]? ≠ some '.')
    (htext : ∀ c ∈ text, g.values[N]? ≠ some c) :
    ∃ old0, epsilon_closure g [] = .ok old0 ∧ old0.Nodup ∧
      ∀ pre rest, text = pre ++ rest →
        ∃ old1, match_loop g pre old0 [] (init_bool_buffer g.size false) =
            .ok (old1, [], List.replicate g.size false) ∧ old1.Nodup := by
  obtain ⟨old0, h1, h2, h3, _⟩ := epsilon_closure_spec g hg (by omega)
  refine ⟨old0, h1, h2, ?_⟩
  intro pre rest hpre
  have hlast : ∀ c ∈ pre, ¬ Fires g c N := by
    intro c hc hf
    have hct : c ∈ text := by rw [hpre]; exact List.mem_append_left _ hc
    rcases (fires_iff g c N).1 hf with h | h
    · exact htext c hct h
    · exact hdot h
  obtain ⟨old1, k1, k2, _⟩ := match_loop_distinct g N hg hsize pre hlast old0 h2 h3
  exact ⟨old1, k1, k2⟩

/-- C17 (amended) at the graph of `(a|b)*` and the text "ab". -/
theorem C17_active_states_distinct_witness :
    altStarGraph.size = 6 + 1 ∧ InRange altStarGraph ∧
      altStarGraph.values[6]? ≠ some '.' ∧
      (∀ c ∈ ['a', 'b'], altStarGraph.values[6]? ≠ some c) ∧
      ∃ old0, epsilon_closure altStarGraph [] = .ok old0 ∧ old0.Nodup ∧
        ∀ pre rest, ['a', 'b'] = pre ++ rest →
          ∃ old1, match_loop altStarGraph pre old0 []
              (init_bool_buffer altStarGraph.size false) =
              .ok (old1, [], List.replicate altStarGraph.size false) ∧ old1.Nodup :=
  ⟨by decide, by decide, by decide, by decide,
    C17_active_states_distinct altStarGraph 6 ['a', 'b'] (by decide) (by decide) (by decide)
      (by decide)⟩

/-- C18: when `v` is already in the adjacency list `l` of `u`, `add_edge g u v`
stores it a second time (the list of `u` becomes `l ++ [v]`, one longer, every
other list is unchanged), and `match` returns the same on both graphs for every
text. -/
theorem C18_duplicate_edges_harmless (g : Graph) (u v : Nat) (l : List Nat)
    (hl : g.adj[u]? = some l) (hv : v ∈ l) :
    ∃ g1, add_edge g u v = .ok g1 ∧ g1.adj[u]? = some (l ++ [v]) ∧
      (l ++ [v]).length = l.length + 1 ∧ (∀ w, w ≠ u → g1.adj[w]? = g.adj[w]?) ∧
      ∀ text, match_nfa g1 text = match_nfa g text := by
  have hul : u < g.adj.length := lt_length_of_getElem? hl
  refine ⟨withEdge g u l v, ?_, ?_, by simp, ?_, ?_⟩
  · simp only [add_edge, hl, withEdge]
  · simp only [withEdge, List.getElem?_set_self hul]
  · intro w hw
    simp only [withEdge, List.getElem?_set_ne (Ne.symm hw)]
  · exact match_nfa_withEdge g u v l hl hv

/-- C18 at the graph of `(a|b)*` and its edge 0 → 3. -/
theorem C18_duplicate_edges_harmless_witness :
    altStarGraph.adj[0]? = some [1, 3, 5] ∧ 3 ∈ [1, 3, 5] ∧
      ∃ g1, add_edge altStarGraph 0 3 = .ok g1 ∧ g1.adj[0]? = some ([1, 3, 5] ++ [3]) ∧
        ([1, 3, 5] ++ [3]).length = [1, 3, 5].length + 1 ∧
        (∀ w, w ≠ 0 → g1.adj[w]? = altStarGraph.adj[w]?) ∧
        ∀ text, match_nfa g1 text = match_nfa altStarGraph text :=
  ⟨by decide, by decide,
    C18_duplicate_edges_harmless altStarGraph 0 3 [1, 3, 5] (by decide) (by decide)⟩

/-- C19: on a graph with in-range edges, cycles included, `add_state` from any
state, with any marks in a buffer of `size` cells, returns as soon as its
recursion bound exceeds the number of unmarked cells, and every larger bound
gives the same result; hence `epsilon_closure` returns, `match` never exhausts
the bound whatever the text, and `match` returns a boolean when state `N` does
not fire on the text. -/
theorem C19_closure_terminates (g : Graph) (hg : InRange g) :
    (∀ (s : Nat) (stack : Stack) (buf : List Bool) (fuel : Nat), s < g.size →
        buf.length = g.size → buf.count false < fuel →
        ∃ r, add_state g fuel s stack buf = .ok r ∧
          ∀ fuel2, fuel ≤ fuel2 → add_state g fuel2 s stack buf = .ok r) ∧
      (0 < g.size → ∃ old, epsilon_closure g [] = .ok old) ∧
      (∀ text, match_nfa g text ≠ .error .outOfFuel) ∧
      (∀ (N : Nat) (text : List Char), g.size = N + 1 → g.values[N]? ≠ some '.' →
        (∀ c ∈ text, g.values[N]? ≠ some c) → ∃ b, match_nfa g text = .ok b) := by
  refine ⟨?_, ?_, match_nfa_bounded g hg, ?_⟩
  · intro s stack buf fuel hs hlen hfuel
    obtain ⟨r, hr, _⟩ := add_state_returns g hg fuel s stack buf hlen hs hfuel
    exact ⟨r, hr, fun fuel2 hle => add_state_fuel_le g fuel fuel2 hle s stack buf r hr⟩
  · intro hpos
    obtain ⟨old, h, _⟩ := epsilon_closure_spec g hg hpos
    exact ⟨old, h⟩
  · intro N text hN hdot htext
    have hlast : ∀ c ∈ text, ¬ Fires g c N := by
      intro c hc hf
      rcases (fires_iff g c N).1 hf with h | h
      · exact htext c hc h
      · exact hdot h
    obtain ⟨b, hb, _⟩ := match_nfa_refines g N text hg hN hlast
    exact ⟨b, hb⟩

/-- C19 at the graph of `a*`, whose edges 0 → 1 and 1 → 0 form a cycle. -/
theorem C19_closure_terminates_witness :
    InRange starGraph ∧
      ((∀ (s : Nat) (stack : Stack) (buf : List Bool) (fuel : Nat), s < starGraph.size →
          buf.length = starGraph.size → buf.count false < fuel →
          ∃ r, add_state starGraph fuel s stack buf = .ok r ∧
            ∀ fuel2, fuel ≤ fuel2 → add_state starGraph fuel2 s stack buf = .ok r) ∧
        (0 < starGraph.size → ∃ old, epsilon_closure starGraph [] = .ok old) ∧
        (∀ text, match_nfa starGraph text ≠ .error .outOfFuel) ∧
        (∀ (N : Nat) (text : List Char), starGraph.size = N + 1 →
          starGraph.values[N]? ≠ some '.' →
          (∀ c ∈ text, starGraph.values[N]? ≠ some c) →
          ∃ b, match_nfa starGraph text = .ok b)) :=
  ⟨by decide, C19_closure_terminates starGraph (by decide)⟩

/-- C20: every pattern `p` with balanced parentheses (a C string, so without
NUL) accepts the text `p` itself, metacharacters included. -/
theorem C20_pattern_accepts_itself (p : List Char) (hp : Balanced p) (hn : NUL ∉ p) :
    main p p = .ok true := by
  obtain ⟨g, _, _, _, hb, hbuilt⟩ := build_nfa_balanced p hp.1
  refine (main_refines p p g p.length hb (built_inRange hbuilt) hbuilt.1 (built_last hbuilt)
    hn).1 ?_
  exact built_self_run hbuilt p 0 _ (Nat.zero_le _) Relation.ReflTransGen.refl
    (List.drop_zero p).symm

/-- C20 at the pattern "(a|b)*". -/
theorem C20_pattern_accepts_itself_witness :
    Balanced ['(', 'a', '|', 'b', ')', '*'] ∧ NUL ∉ ['(', 'a', '|', 'b', ')', '*'] ∧
      main ['(', 'a', '|', 'b', ')', '*'] ['(', 'a', '|', 'b', ')', '*'] = .ok true :=
  ⟨by decide, by decide,
    C20_pattern_accepts_itself ['(', 'a', '|', 'b', ')', '*'] (by decide) (by decide)⟩

end Cgrep
